import Mathlib

/-!
# Verification of the autograph graph-compilation backend

A shallow embedding of

* `layout_id_manager_t` (`autograph_backend.hpp`): the interning vector of memory
  descriptors with `set_mem_desc` / `get_mem_desc`;
* `autograph_backend::get_partitions` (`autograph_backend.hpp`): the environment gate and the
  priority filter of the pass registry;
* `kernel_base_t::compile` and `kernel_base_t::enabled_constant_cache`
  (`autograph_backend.hpp`), `sum_t::compile_impl`, `sum_t::execute_impl` and
  `sum_t::sycl_execute_impl` (`kernels/sum.hpp`);
* `autograph_backend::register_passes` (`autograph_backend.cpp`) and the tag-biased
  `dnnl_layout_id_manager_t` of the `DNNL_GRAPH_LAYOUT_DEBUG` build (`autograph_backend.hpp`).

The memory descriptor is a type parameter; the virtual predicate `is_mem_desc_equal` is a
function parameter (its concrete override is the library's `md1 == md2`).  The mutex of
`mem_descs_` serialises the two operations, so each of them is a function on the state.
Pass priorities are C++ `float`s: they are modelled by their binary32 bit fields, with the
comparisons of IEEE-754 (`float_gt_iff_toRat_lt` relates them to the rational values).
Definitions come first, lemmas and the claims after them.
-/

namespace autograph_impl

/-! ## Layout-id manager -/

/-- The iterator distance `std::find_if(begin, end, p) - begin`: the index of the first
element satisfying `p`, and the length of the vector when there is none (`end()`). -/
def find_if {α : Type} (p : α → Bool) : List α → Nat
  | [] => 0
  | m :: ms => if p m then 0 else find_if p ms + 1

/-- The state of `layout_id_manager_t`: the vector `mem_descs_.data_`. -/
structure layout_id_manager_t (α : Type) where
  data_ : List α
deriving Repr, DecidableEq

/-- The default-constructed manager. -/
def layout_id_manager_t.empty {α : Type} : layout_id_manager_t α := ⟨[]⟩

/-- `layout_id_manager_t::set_mem_desc`: the returned `optional<size_t>` and the state left
behind. -/
def layout_id_manager_t.set_mem_desc {α : Type} (is_mem_desc_equal : α → α → Bool)
    (mgr : layout_id_manager_t α) (mem_desc : α) : Option Nat × layout_id_manager_t α :=
  let pos := find_if (fun m => is_mem_desc_equal m mem_desc) mgr.data_
  if pos ≠ mgr.data_.length then
    (some pos, mgr)
  else
    let data := mgr.data_ ++ [mem_desc]
    (some (data.length - 1), ⟨data⟩)

/-- `layout_id_manager_t::get_mem_desc`: `nullopt` for an index past the vector. -/
def layout_id_manager_t.get_mem_desc {α : Type} (mgr : layout_id_manager_t α)
    (layout_id : Nat) : Option α :=
  if layout_id ≥ mgr.data_.length then none else mgr.data_[layout_id]?

/-- A sequence of `set_mem_desc` calls, one per descriptor of `ds`, started in `mgr`:
the ids returned (in call order) and the final state. -/
def layout_id_manager_t.set_mem_descs {α : Type} (is_mem_desc_equal : α → α → Bool) :
    layout_id_manager_t α → List α → List (Option Nat) × layout_id_manager_t α
  | mgr, [] => ([], mgr)
  | mgr, d :: ds =>
    let r := mgr.set_mem_desc is_mem_desc_equal d
    let rs := layout_id_manager_t.set_mem_descs is_mem_desc_equal r.2 ds
    (r.1 :: rs.1, rs.2)

/-- Index `i` holds the first element of `l` that `is_mem_desc_equal` relates to `d`. -/
def first_equal {α : Type} (is_mem_desc_equal : α → α → Bool) (l : List α) (d : α)
    (i : Nat) : Prop :=
  ∃ m, l[i]? = some m ∧ is_mem_desc_equal m d = true ∧
    ∀ j x, j < i → l[j]? = some x → is_mem_desc_equal x d = false

/-! ## Status codes, policies, environment -/

/-- Modelled from the spec: `status_t` is declared outside `src/`; the spec lists the enum as
`kSuccess, kInvalidArguments, kInvalidGraph, kUnimplemented, kOutOfMemory, kInternalError`. -/
inductive status_t where
  | success
  | invalid_arguments
  | invalid_graph
  | unimplemented
  | out_of_memory
  | internal_error
deriving Repr, DecidableEq

/-- Modelled from the spec: `partition_policy_t` is declared outside `src/`; the spec gives
`partition_policy ∈ {fusion, debug}`. -/
inductive partition_policy_t where
  | fusion
  | debug
deriving Repr, DecidableEq

/-- The process environment as the backend reads it: the integer value of a variable when it
is set. -/
abbrev env_t := String → Option Int

/-- Modelled from the spec: `graph::utils::getenv_int_internal(name, default_value)` is not
under `src/`; it yields the integer value of the environment variable, and `default_value`
when the variable is unset. -/
def getenv_int_internal (env : env_t) (name : String) (default_value : Int) : Int :=
  (env name).getD default_value

/-! ## The C++ `float` of pass priorities -/

/-- An IEEE-754 binary32 value by its three bit fields: 1 sign bit, 8 exponent bits,
23 mantissa bits. -/
structure float where
  sign : Bool
  exponent : Nat
  mantissa : Nat
  exponent_lt : exponent < 256
  mantissa_lt : mantissa < 8388608
deriving Repr, DecidableEq

/-- NaN: all exponent bits set and a non-zero mantissa. -/
def float.isnan (x : float) : Bool :=
  x.exponent == 255 && x.mantissa != 0

/-- The sign-magnitude integer of a value. On values that are not NaN the IEEE order is the
order of these integers (`+0` and `-0` both have key `0`, the infinities are the extremes). -/
def float.key (x : float) : Int :=
  if x.sign then -((x.exponent : Int) * 8388608 + (x.mantissa : Int))
  else (x.exponent : Int) * 8388608 + (x.mantissa : Int)

/-- The C++ comparison `a > b` on `float`: false as soon as an operand is NaN. -/
def float.gt (a b : float) : Bool :=
  !a.isnan && !b.isnan && decide (b.key < a.key)

/-- The C++ comparison `a <= b` on `float`: false as soon as an operand is NaN. -/
def float.le (a b : float) : Bool :=
  !a.isnan && !b.isnan && decide (a.key ≤ b.key)

/-- The magnitude of a finite `float`, scaled by `2 ^ 150` to a natural number: a subnormal
(`exponent = 0`) is `mantissa * 2 ^ (-149)`, a normal value is
`(2 ^ 23 + mantissa) * 2 ^ (exponent - 150)`. -/
def float.scaled_magnitude (x : float) : Nat :=
  if x.exponent = 0 then 2 * x.mantissa else (8388608 + x.mantissa) * 2 ^ x.exponent

/-- The rational value of a finite `float` (`none` for NaN and the infinities). -/
def float.toRat? (x : float) : Option ℚ :=
  if x.exponent = 255 then none
  else some ((if x.sign then -1 else 1) * (x.scaled_magnitude : ℚ) / 2 ^ 150)

/-- The value `std::numeric_limits<float>::max()` (bit pattern `0x7F7FFFFF`). -/
def float.numeric_limits_max : float := ⟨false, 254, 8388607, by decide, by decide⟩

/-- The literal `20.0f` (bit pattern `0x41A00000`). -/
def float.lit_20 : float := ⟨false, 131, 2097152, by decide, by decide⟩

/-- The literal `8.0f` (bit pattern `0x41000000`). -/
def float.lit_8 : float := ⟨false, 130, 0, by decide, by decide⟩

/-- Positive infinity (bit pattern `0x7F800000`). -/
def float.infinity : float := ⟨false, 255, 0, by decide, by decide⟩

/-- A quiet NaN (bit pattern `0x7FC00000`). -/
def float.quiet_NaN : float := ⟨false, 255, 4194304, by decide, by decide⟩

/-! ## Pass registry and `get_partitions` -/

/-- A registered pattern pass, as far as `get_partitions` looks at it: its name and its
priority (`pass->get_priority()`). -/
structure pass_base where
  pass_name : String
  priority : float
deriving Repr, DecidableEq

/-- The pass registry: the vector returned by `get_passes()`. -/
structure pass_registry_t where
  passes_ : List pass_base
deriving Repr, DecidableEq

/-- Modelled from the spec: `pass_registry_t::register_pass` is not under `src/`; the spec
gives `register(pattern)`: append. -/
def pass_registry_t.register_pass (r : pass_registry_t) (pass : pass_base) : pass_registry_t :=
  ⟨r.passes_ ++ [pass]⟩

/-- The accessor `get_passes()`. -/
def pass_registry_t.get_passes (r : pass_registry_t) : List pass_base := r.passes_

/-- The pass manager `pm(filtered_registry)`: it holds the registry it was constructed on. -/
structure pass_manager_t where
  pass_registry_ : pass_registry_t
deriving Repr, DecidableEq

/-- The threshold `priority_ths` of `get_partitions`. -/
def priority_ths (policy : partition_policy_t) (enable_large_partition : Bool) : float :=
  if policy = partition_policy_t.fusion ∧ enable_large_partition = true then
    float.numeric_limits_max
  else if policy = partition_policy_t.fusion then float.lit_20
  else float.lit_8

/-- The loop `for (auto &pass : get_passes())` of `get_partitions`, run over the passes still
to visit, with the registry filled so far. -/
def filter_passes (priority_ths : float) :
    List pass_base → pass_registry_t → pass_registry_t
  | [], filtered_registry => filtered_registry
  | pass :: rest, filtered_registry =>
    if pass.priority.gt priority_ths then filter_passes priority_ths rest filtered_registry
    else filter_passes priority_ths rest (filtered_registry.register_pass pass)

/-- What a call of `get_partitions` leaves behind: the returned status, the graph, and the
pass manager that was constructed and run (`none` when the call returned before that). -/
structure get_partitions_result (G : Type) where
  status : status_t
  agraph : G
  pm : Option pass_manager_t

/-- `autograph_backend::get_partitions` (build without `DNNL_ENABLE_GRAPH_DUMP`).
`run_passes pm agraph policy` stands for `pm.run_passes(agraph, "", policy)`, which is not
under `src/`; it returns the graph with its partitions. -/
def get_partitions {G : Type} (run_passes : pass_manager_t → G → partition_policy_t → G)
    (env : env_t) (pass_registry_ : pass_registry_t) (agraph : G)
    (policy : partition_policy_t) : get_partitions_result G :=
  let disable_dnnl_bkd : Bool := decide (getenv_int_internal env "DISABLE_DNNL_BACKEND" 0 > 0)
  if disable_dnnl_bkd then ⟨status_t.success, agraph, none⟩
  else
    let enable_large_partition : Bool :=
      decide (getenv_int_internal env "ENABLE_LARGE_PARTITION" 1 > 0)
    let ths := priority_ths policy enable_large_partition
    let filtered_registry := filter_passes ths pass_registry_.get_passes ⟨[]⟩
    let pm : pass_manager_t := ⟨filtered_registry⟩
    ⟨status_t.success, run_passes pm agraph policy, some pm⟩

/-! ## `autograph_backend::register_passes` -/

/-- One step of a stable sort by descending priority: `pass` goes in front of the first pass
of the (sorted) list that it is greater than, so behind every pass it is not greater than. -/
def ordered_insert_pass (pass : pass_base) : List pass_base → List pass_base
  | [] => [pass]
  | q :: qs =>
    if pass.priority.gt q.priority then pass :: q :: qs else q :: ordered_insert_pass pass qs

/-- Modelled from the spec: `pass_registry_t::sort_passes` is not under `src/`; the spec
gives "`sort()`: stable sort by descending priority". The passes are inserted one by one, in
their registration order. -/
def pass_registry_t.sort_passes (r : pass_registry_t) : pass_registry_t :=
  ⟨r.passes_.foldl (fun sorted pass => ordered_insert_pass pass sorted) []⟩

/-- The passes that each call `pattern::register_...(pass_registry_)` of `register_passes`
registers, in the order in which it registers them; these functions are not under `src/`. -/
structure pattern_groups where
  binary_fusion : List pass_base
  bn_fusion : List pass_base
  concat_fusion : List pass_base
  conv_block_fusion : List pass_base
  conv_post_ops_fusion : List pass_base
  convtranspose_fusion : List pass_base
  matmul_fusion : List pass_base
  single_op_pass : List pass_base
  pool_fusion : List pass_base
  eltwise_fusion : List pass_base
  quantize_fusion : List pass_base
  interpolate_fusion : List pass_base
  softmax_fusion : List pass_base
  layernorm_fusion : List pass_base
  sum_fusion : List pass_base
  reorder_fusion : List pass_base
  shuffle_fusion : List pass_base
  reduction_fusion : List pass_base

/-- Modelled from the spec: a call `pattern::register_...(pass_registry_)` is not under
`src/`; it registers the passes of its group one after the other (`register(pattern)`:
append). -/
def register_pattern_group (group : List pass_base) (r : pass_registry_t) : pass_registry_t :=
  group.foldl pass_registry_t.register_pass r

/-- All passes of the groups, in the order in which `register_passes` registers them. -/
def pattern_groups.all (patterns : pattern_groups) : List pass_base :=
  patterns.binary_fusion ++
    patterns.bn_fusion ++
    patterns.concat_fusion ++
    patterns.conv_block_fusion ++
    patterns.conv_post_ops_fusion ++
    patterns.convtranspose_fusion ++
    patterns.matmul_fusion ++
    patterns.single_op_pass ++
    patterns.pool_fusion ++
    patterns.eltwise_fusion ++
    patterns.quantize_fusion ++
    patterns.interpolate_fusion ++
    patterns.softmax_fusion ++
    patterns.layernorm_fusion ++
    patterns.sum_fusion ++
    patterns.reorder_fusion ++
    patterns.shuffle_fusion ++
    patterns.reduction_fusion

/-- `autograph_backend::register_passes`: the eighteen groups are registered, then
`pass_registry_.sort_passes()` runs, and the function returns `true`. -/
def autograph_backend.register_passes (patterns : pattern_groups)
    (pass_registry_ : pass_registry_t) : Bool × pass_registry_t :=
  let pass_registry_ := register_pattern_group patterns.binary_fusion pass_registry_
  let pass_registry_ := register_pattern_group patterns.bn_fusion pass_registry_
  let pass_registry_ := register_pattern_group patterns.concat_fusion pass_registry_
  let pass_registry_ := register_pattern_group patterns.conv_block_fusion pass_registry_
  let pass_registry_ := register_pattern_group patterns.conv_post_ops_fusion pass_registry_
  let pass_registry_ := register_pattern_group patterns.convtranspose_fusion pass_registry_
  let pass_registry_ := register_pattern_group patterns.matmul_fusion pass_registry_
  let pass_registry_ := register_pattern_group patterns.single_op_pass pass_registry_
  let pass_registry_ := register_pattern_group patterns.pool_fusion pass_registry_
  let pass_registry_ := register_pattern_group patterns.eltwise_fusion pass_registry_
  let pass_registry_ := register_pattern_group patterns.quantize_fusion pass_registry_
  let pass_registry_ := register_pattern_group patterns.interpolate_fusion pass_registry_
  let pass_registry_ := register_pattern_group patterns.softmax_fusion pass_registry_
  let pass_registry_ := register_pattern_group patterns.layernorm_fusion pass_registry_
  let pass_registry_ := register_pattern_group patterns.sum_fusion pass_registry_
  let pass_registry_ := register_pattern_group patterns.reorder_fusion pass_registry_
  let pass_registry_ := register_pattern_group patterns.shuffle_fusion pass_registry_
  let pass_registry_ := register_pattern_group patterns.reduction_fusion pass_registry_
  (true, pass_registry_.sort_passes)

/-! ## Kernels: `kernel_base_t::compile` -/

/-- What a compile step leaves behind: the returned status, the kernel, and the caller's
logical tensors (`sum_t::compile_impl` writes them through `const_cast`). -/
structure compile_result (K LT : Type) where
  status : status_t
  kernel : K
  inputs : List LT
  outputs : List LT

/-- The default `kernel_base_t::prepare_inplace_pairs_impl`, which `sum_t` does not
override: `return status::success`. -/
def kernel_base_t.prepare_inplace_pairs_impl {K : Type} (k : K) : status_t × K :=
  (status_t.success, k)

/-- `kernel_base_t::compile`, over the two virtual steps `compile_impl` and
`prepare_inplace_pairs_impl`. -/
def kernel_base_t.compile {K P E LT : Type}
    (compile_impl : K → P → E → List LT → List LT → compile_result K LT)
    (prepare_inplace_pairs_impl : K → status_t × K)
    (k : K) (part : P) (aengine : E) (inputs outputs : List LT) : compile_result K LT :=
  let ret := compile_impl k part aengine inputs outputs
  if ret.status ≠ status_t.success then ret
  else
    let r := prepare_inplace_pairs_impl ret.kernel
    ⟨r.1, r.2, ret.inputs, ret.outputs⟩

/-! ## Kernels: `sum_t::execute_impl` -/

/-- The execution args set, as far as `sum_t` reads it. A memory object is named by a number;
`exec_args` is `get_exec_args()`, one argument set per executable; the three other vectors pair
a memory object with an input index, an output index, an offset key. -/
structure execution_args_set_t (A : Type) where
  exec_args : List A
  mems_use_external_inputs : List (Nat × Nat)
  mems_use_external_outputs : List (Nat × Nat)
  mems_use_internal_temporary : List (Nat × Nat)

/-- A tensor, as far as `sum_t` reads it: `get_data_handle()`. -/
structure tensor_t where
  data_handle : Nat
deriving Repr, DecidableEq

/-- The data handle currently bound to each memory object. -/
abbrev handles_t := Nat → Nat

/-- The call `mem.set_data_handle(handle)`. -/
def set_data_handle (handles : handles_t) (mem : Nat) (handle : Nat) : handles_t :=
  fun m => if m = mem then handle else handles m

/-- The two loops of `prepare_args_set` over external inputs (or outputs): every listed
memory object takes the data handle of the tensor at its index. Indexing the tensor vector out
of range has no defined result (`none`). -/
def bind_external (tensors : List tensor_t) :
    List (Nat × Nat) → handles_t → Option handles_t
  | [], handles => some handles
  | mem_idx :: rest, handles =>
    match tensors[mem_idx.2]? with
    | none => none
    | some t => bind_external tensors rest (set_data_handle handles mem_idx.1 t.data_handle)

/-- The third loop of `prepare_args_set`: every internal temporary takes the address granted
for its offset key. -/
def bind_internal (var_grantor_get : Nat → Nat) : List (Nat × Nat) → handles_t → handles_t
  | [], handles => handles
  | mem_offkey :: rest, handles =>
    bind_internal var_grantor_get rest
      (set_data_handle handles mem_offkey.1 (var_grantor_get mem_offkey.2))

/-- `sum_t::prepare_args_set`. `internal_temporary_grantor buffer key` stands for
`memory_planner_.internal_temporary_grantor(buffer).get(key)`, which is not under `src/`. -/
def prepare_args_set {A : Type} (internal_temporary_grantor : Nat → Nat → Nat)
    (res : execution_args_set_t A) (inputs outputs : List tensor_t) (scratchpad_buffer : Nat)
    (handles : handles_t) : Option handles_t :=
  match bind_external inputs res.mems_use_external_inputs handles with
  | none => none
  | some h1 =>
    match bind_external outputs res.mems_use_external_outputs h1 with
    | none => none
    | some h2 =>
      some (bind_internal (internal_temporary_grantor scratchpad_buffer)
        res.mems_use_internal_temporary h2)

/-- A compiled `sum_t`, as far as execution reads it: the executables `subgraph_->execs_`,
the args set that `resource_ctor_()` clones, and
`memory_planner_.total_internal_temporary_size()`. -/
structure sum_t (X A : Type) where
  execs_ : List X
  resource_ctor_ : execution_args_set_t A
  total_internal_temporary_size : Nat

/-- Modelled from the spec: `thread_local_cache_t::get_or_add` is not under `src/`; the spec
gives "acquire (or lazily construct) a per-thread Execution Args Set keyed by the kernel's
identity". The state is this thread's entry for this kernel. -/
def get_or_add {A : Type} (res_cache : Option (execution_args_set_t A))
    (resource_ctor_ : execution_args_set_t A) :
    execution_args_set_t A × Option (execution_args_set_t A) :=
  match res_cache with
  | some res => (res, some res)
  | none => (resource_ctor_, some resource_ctor_)

/-- A scratchpad: its size and its buffer. -/
structure scratchpad_t where
  size : Nat
  buffer : Nat
deriving Repr, DecidableEq

/-- Modelled from the spec: `temporary_scratchpad_t` is not under `src/`; the spec gives
"acquire a scratchpad buffer of exactly `plan.total_internal_bytes` from the engine's
allocator". `allocate` is the allocator. -/
def temporary_scratchpad_t (allocate : Nat → Nat) (size : Nat) : scratchpad_t :=
  ⟨size, allocate size⟩

/-- The loop `for (size_t i = 0; i < execs_.size(); i++)` of `execute_impl`, at index `i`
with `n = execs_.size() - i` iterations to go. `execute x p_stream args handles` stands for
`x->execute(p_stream, args)`, which is not under `src/`: it returns the stream with the
executable submitted on the argument set `args` (whose memory objects carry `handles`).
Indexing `get_exec_args()` out of range has no defined result (`none`). -/
def execute_loop {X A S : Type} (execute : X → S → A → handles_t → S)
    (execs_ : List X) (exec_args : List A) (handles : handles_t) :
    Nat → Nat → S → Option S
  | 0, _, p_stream => some p_stream
  | n + 1, i, p_stream =>
    match execs_[i]?, exec_args[i]? with
    | some x, some args =>
      execute_loop execute execs_ exec_args handles n (i + 1) (execute x p_stream args handles)
    | _, _ => none

/-- What `execute_impl` acts on besides its arguments: the stream, the data handles of the
memory objects, and this thread's cache entry for the kernel. -/
structure execute_state (S A : Type) where
  p_stream : S
  handles : handles_t
  res_cache : Option (execution_args_set_t A)

/-- `sum_t::execute_impl`: the returned status and the state left behind. The `assertm` on
the scratchpad size aborts the call when it fails (`none`). -/
def sum_t.execute_impl {X A S : Type} (execute : X → S → A → handles_t → S)
    (internal_temporary_grantor : Nat → Nat → Nat) (allocate : Nat → Nat)
    (kernel : sum_t X A) (st : execute_state S A) (inputs outputs : List tensor_t) :
    Option (status_t × execute_state S A) :=
  let r := get_or_add st.res_cache kernel.resource_ctor_
  let res := r.1
  let scratchpad := temporary_scratchpad_t allocate kernel.total_internal_temporary_size
  if scratchpad.size ≥ kernel.total_internal_temporary_size then
    match prepare_args_set internal_temporary_grantor res inputs outputs scratchpad.buffer
        st.handles with
    | none => none
    | some handles =>
      match execute_loop execute kernel.execs_ res.exec_args handles kernel.execs_.length 0
          st.p_stream with
      | none => none
      | some p_stream => some (status_t.success, ⟨p_stream, handles, r.2⟩)
  else none

/-! ## Kernels: `sum_t::sycl_execute_impl` (`DNNL_WITH_SYCL`) -/

/-- One call `execs_[i]->execute_sycl(p_stream, args, deps)` as the loop made it: the
executable, the argument set, the dependencies passed, and the event returned. -/
structure sycl_submission (X A Ev : Type) where
  exec : X
  args : A
  deps : List Ev
  event : Ev

/-- The variables of the loop of `sycl_execute_impl`: the stream, `deps`,
`returned_event`, and the record of the calls made so far. -/
structure sycl_loop_state (X A S Ev : Type) where
  p_stream : S
  deps : List Ev
  returned_event : Ev
  submitted : List (sycl_submission X A Ev)

/-- The loop of `sycl_execute_impl`, at index `i` with `n = execs_.size() - i` iterations to
go: `returned_event = execs_[i]->execute_sycl(p_stream, args[i], deps); deps = {returned_event}`.
`execute_sycl x p_stream args handles deps` stands for the call, which is not under `src/`: it
returns the event and the stream. -/
def sycl_execute_loop {X A S Ev : Type}
    (execute_sycl : X → S → A → handles_t → List Ev → Ev × S)
    (execs_ : List X) (exec_args : List A) (handles : handles_t) :
    Nat → Nat → sycl_loop_state X A S Ev → Option (sycl_loop_state X A S Ev)
  | 0, _, st => some st
  | n + 1, i, st =>
    match execs_[i]?, exec_args[i]? with
    | some x, some args =>
      let r := execute_sycl x st.p_stream args handles st.deps
      sycl_execute_loop execute_sycl execs_ exec_args handles n (i + 1)
        ⟨r.2, [r.1], r.1, st.submitted ++ [⟨x, args, st.deps, r.1⟩]⟩
    | _, _ => none

/-- What `sycl_execute_impl` leaves behind: the stream, the data handles, this thread's cache
entry, the caller's `*sycl_event` (`none` for a null pointer), the event given to
`scratchpad.set_deps`, and the record of the calls of `execute_sycl`. -/
structure sycl_execute_state (X A S Ev : Type) where
  p_stream : S
  handles : handles_t
  res_cache : Option (execution_args_set_t A)
  sycl_event : Option Ev
  scratchpad_deps : Ev
  submitted : List (sycl_submission X A Ev)

/-- `sum_t::sycl_execute_impl`. `default_event` is the default-constructed `::sycl::event`,
`sycl_event` is what the caller's pointer refers to (`none` for a null pointer). -/
def sum_t.sycl_execute_impl {X A S Ev : Type}
    (execute_sycl : X → S → A → handles_t → List Ev → Ev × S)
    (internal_temporary_grantor : Nat → Nat → Nat) (allocate : Nat → Nat) (default_event : Ev)
    (kernel : sum_t X A) (st : execute_state S A) (inputs outputs : List tensor_t)
    (sycl_deps : List Ev) (sycl_event : Option Ev) :
    Option (status_t × sycl_execute_state X A S Ev) :=
  let deps := sycl_deps
  let returned_event := default_event
  let r := get_or_add st.res_cache kernel.resource_ctor_
  let res := r.1
  let scratchpad := temporary_scratchpad_t allocate kernel.total_internal_temporary_size
  if scratchpad.size ≥ kernel.total_internal_temporary_size then
    match prepare_args_set internal_temporary_grantor res inputs outputs scratchpad.buffer
        st.handles with
    | none => none
    | some handles =>
      match sycl_execute_loop execute_sycl kernel.execs_ res.exec_args handles
          kernel.execs_.length 0 ⟨st.p_stream, deps, returned_event, []⟩ with
      | none => none
      | some l =>
        some (status_t.success,
          ⟨l.p_stream, handles, r.2, sycl_event.map (fun _ => l.returned_event),
            l.returned_event, l.submitted⟩)
  else none

/-- Event `e` was returned by a recorded call that was given `d` among its dependencies. -/
def depends_directly {X A Ev : Type} (submitted : List (sycl_submission X A Ev))
    (e d : Ev) : Prop :=
  ∃ r ∈ submitted, r.event = e ∧ d ∈ r.deps

/-- The dependency closure of an event: `d` is reached from `e` through recorded calls. -/
def in_dependency_closure {X A Ev : Type} (submitted : List (sycl_submission X A Ev))
    (e d : Ev) : Prop :=
  Relation.ReflTransGen (depends_directly submitted) e d

/-- The calls are chained: the first one was given `deps`, each later one exactly the event
of the call before it. -/
def chained {X A Ev : Type} : List Ev → List (sycl_submission X A Ev) → Prop
  | _, [] => True
  | deps, r :: rest => r.deps = deps ∧ chained [r.event] rest

/-! ## Kernels: `sum_t::compile_impl` and `kernel_base_t::enabled_constant_cache` -/

/-- The engine kinds that `autograph_backend::support_engine_kind` names. -/
inductive engine_kind_t where
  | cpu
  | gpu
deriving Repr, DecidableEq

/-- Modelled from the spec: the graph `engine_t` is declared outside `src/`; the spec gives
`engine{kind, allocator, device handle}`. -/
structure engine_t where
  kind : engine_kind_t
  allocator : Nat
deriving Repr, DecidableEq

/-- A `dnnl::engine` handle: `none` is the empty, default-constructed handle, for which
`if (p_engine_)` is false; otherwise the handle of an engine of the given kind. -/
abbrev dnnl_engine := Option engine_kind_t

/-- Modelled from the spec: `make_dnnl_engine` is not under `src/`; it yields the handle of
the primitive-library engine for the graph engine, of the same kind. -/
def make_dnnl_engine (g_engine : engine_t) : dnnl_engine := some g_engine.kind

/-- The data members of `kernel_base_t`: `inplace_pairs_` and `p_engine_`. -/
structure kernel_base_t where
  inplace_pairs_ : List (Nat × Nat)
  p_engine_ : dnnl_engine
deriving Repr, DecidableEq

/-- `kernel_base_t::enabled_constant_cache`. `is_constant_cache_enabled` is the global flag
`is_constant_cache_enabled()`, `cpu_runtime_sycl` says whether the build has
`DNNL_CPU_RUNTIME == DNNL_RUNTIME_SYCL`. The member read is `kernel_base_t::p_engine_`. -/
def kernel_base_t.enabled_constant_cache (is_constant_cache_enabled : Bool)
    (cpu_runtime_sycl : Bool) (k : kernel_base_t) : Bool :=
  let enabled := is_constant_cache_enabled
  if cpu_runtime_sycl = true then
    match k.p_engine_ with
    | some kind => enabled && decide (kind ≠ engine_kind_t.cpu)
    | none => enabled
  else enabled

/-- A subgraph, as far as `sum_t` reads it: `ins_`, `outs_`, `execs_`, and the rest (ops,
engine, floating-point mode, layout policy). -/
structure subgraph_t (X LT B : Type) where
  ins_ : List LT
  outs_ : List LT
  execs_ : List X
  body : B

/-- The data members of a `sum_t` object: the `kernel_base_t` subobject, and the members that
`sum_t` declares itself. `sum_t` declares a `p_engine_` of its own, which hides
`kernel_base_t::p_engine_` inside the member functions of `sum_t`. `resource_ctor_` holds the
args set that the stored function clones (`none` before it is assigned). -/
structure sum_members_t (X LT B MP A : Type) where
  base : kernel_base_t
  p_engine_ : dnnl_engine
  g_alloc_ : Option Nat
  subgraph_ : Option (subgraph_t X LT B)
  memory_planner_ : MP
  resource_ctor_ : Option (execution_args_set_t A)

/-- A default-constructed `sum_t` around the memory planner `memory_planner_`. -/
def sum_members_t.default {X LT B MP A : Type} (memory_planner_ : MP) :
    sum_members_t X LT B MP A :=
  ⟨⟨[], none⟩, none, none, none, memory_planner_, none⟩

/-- The functions that `sum_t::compile_impl` calls and that are not under `src/`:
`make_subgraph part p_engine` is `std::make_shared<subgraph_t>(part->get_ops(), p_engine_,
part->get_fpmath_mode(), part->get_use_blocked_layout(), true)`, the passes return their
status and the subgraph they leave, `memory_planner_run` is `memory_planner_.run(sg)`, and
`get_exec_args_set` is `memory_planner_.get_exec_args_set()`. -/
structure sum_compile_env (P X LT B MP A : Type) where
  make_subgraph : P → dnnl_engine → subgraph_t X LT B
  set_given_inputs_outputs :
    subgraph_t X LT B → List LT → List LT → status_t × subgraph_t X LT B
  lower_down : subgraph_t X LT B → status_t × subgraph_t X LT B
  fuse_to_dnnl_sum : subgraph_t X LT B → status_t × subgraph_t X LT B
  layout_propagation : subgraph_t X LT B → status_t × subgraph_t X LT B
  memory_planner_run : MP → subgraph_t X LT B → status_t × MP × subgraph_t X LT B
  compile_ops : subgraph_t X LT B → status_t × subgraph_t X LT B
  get_exec_args_set : MP → execution_args_set_t A

/-- A pass that only acts on the subgraph, as a pass on the subgraph and the memory
planner. -/
def subgraph_pass {SG MP : Type} (pass : SG → status_t × SG) (s : SG × MP) :
    status_t × (SG × MP) :=
  ((pass s.1).1, ((pass s.1).2, s.2))

/-- The pass `memory_plan` of `compile_impl`: `memory_planner_.run(sg)`. -/
def memory_plan {SG MP : Type} (memory_planner_run : MP → SG → status_t × MP × SG)
    (s : SG × MP) : status_t × (SG × MP) :=
  ((memory_planner_run s.2 s.1).1,
    ((memory_planner_run s.2 s.1).2.2, (memory_planner_run s.2 s.1).2.1))

/-- Modelled from the spec: `pass_pipeline_t::run` is not under `src/`; the spec gives "each
pass returns a status; the pipeline short-circuits on first non-success". -/
def pass_pipeline_t.run {St : Type} : List (St → status_t × St) → St → status_t × St
  | [], s => (status_t.success, s)
  | pass :: rest, s =>
    if (pass s).1 ≠ status_t.success then pass s else pass_pipeline_t.run rest (pass s).2

/-- The loops `for (size_t i = 0; i < inputs.size(); i++) inputs[i] = subgraph_->ins_[i]`
(and the same for the outputs), at index `i` with `n` iterations to go. Indexing the vector of
the subgraph out of range has no defined result (`none`). -/
def fill_logical_tensors {LT : Type} (from_subgraph : List LT) :
    Nat → Nat → List LT → Option (List LT)
  | 0, _, given => some given
  | n + 1, i, given =>
    match from_subgraph[i]? with
    | none => none
    | some lt => fill_logical_tensors from_subgraph n (i + 1) (given.set i lt)

/-- `sum_t::compile_impl`: the returned status, the members of the kernel and the caller's
logical tensors left behind. `BACKEND_DNNL_CHECK(s)` returns the status of `s` when it is not
success. The name `p_engine_` in the body is the member declared by `sum_t`. -/
def sum_t.compile_impl {P X LT B MP A : Type} (env : sum_compile_env P X LT B MP A)
    (k : sum_members_t X LT B MP A) (part : P) (g_engine : engine_t)
    (inputs outputs : List LT) : Option (compile_result (sum_members_t X LT B MP A) LT) :=
  let p_engine_ := make_dnnl_engine g_engine
  let g_alloc_ := some g_engine.allocator
  let subgraph_ := env.make_subgraph part p_engine_
  let r1 := env.set_given_inputs_outputs subgraph_ inputs outputs
  if r1.1 ≠ status_t.success then
    some ⟨r1.1, ⟨k.base, p_engine_, g_alloc_, some r1.2, k.memory_planner_, k.resource_ctor_⟩,
      inputs, outputs⟩
  else
    let r2 := pass_pipeline_t.run
      [subgraph_pass env.lower_down, subgraph_pass env.fuse_to_dnnl_sum,
        subgraph_pass env.layout_propagation, memory_plan env.memory_planner_run,
        subgraph_pass env.compile_ops] (r1.2, k.memory_planner_)
    if r2.1 ≠ status_t.success then
      some ⟨r2.1, ⟨k.base, p_engine_, g_alloc_, some r2.2.1, r2.2.2, k.resource_ctor_⟩,
        inputs, outputs⟩
    else
      match fill_logical_tensors r2.2.1.ins_ inputs.length 0 inputs with
      | none => none
      | some inputs2 =>
        match fill_logical_tensors r2.2.1.outs_ outputs.length 0 outputs with
        | none => none
        | some outputs2 =>
          some ⟨status_t.success,
            ⟨k.base, p_engine_, g_alloc_, some r2.2.1, r2.2.2,
              some (env.get_exec_args_set r2.2.2)⟩, inputs2, outputs2⟩

/-- The view of a compiled kernel that execution reads, for
`total_internal_temporary_size` the accessor of the memory planner. -/
def sum_members_t.compiled {X LT B MP A : Type} (total_internal_temporary_size : MP → Nat)
    (k : sum_members_t X LT B MP A) : Option (sum_t X A) :=
  match k.subgraph_, k.resource_ctor_ with
  | some sg, some res => some ⟨sg.execs_, res, total_internal_temporary_size k.memory_planner_⟩
  | _, _ => none

/-! ## The tag-biased layout-id manager (`DNNL_GRAPH_LAYOUT_DEBUG`) -/

/-- The subtraction `a - b` on `size_t`: modulo `2 ^ 64`. -/
def size_t_sub (a b : Nat) : Nat :=
  (a % 2 ^ 64 + 2 ^ 64 - b % 2 ^ 64) % 2 ^ 64

/-- `dnnl_layout_id_manager_t::get_mem_desc` of the debug build, for the constant
`LAST_TAG = format_tag_last`: the statement `layout_id -= LAST_TAG` comes first. -/
def dnnl_layout_id_manager_t.get_mem_desc {α : Type} (LAST_TAG : Nat)
    (mgr : layout_id_manager_t α) (layout_id : Nat) : Option α :=
  let layout_id := size_t_sub layout_id LAST_TAG
  if layout_id ≥ mgr.data_.length then none else mgr.data_[layout_id]?

/-- `dnnl_layout_id_manager_t::set_mem_desc` of the debug build. The parts of the library
that are not under `src/` are parameters: `is_blocked md` is
`md.get_format_kind() == format_kind::blocked`, `get_format_tag md` is
`static_cast<size_t>(get_format_tag(md))`, `memory_desc dims dtype tag` is the constructor
`memory::desc(dims, dtype, static_cast<memory::format_tag>(tag))` (`none` when it throws),
`md != temp_md` is the negation of `is_mem_desc_equal`, and `LAST_TAG`,
`dnnl_format_tag_last` are the two constants. The result is `none` when an exception leaves
the function. The sums with `LAST_TAG` are taken without wrap-around: a vector that fits in
memory keeps them below `2 ^ 64`. -/
def dnnl_layout_id_manager_t.set_mem_desc {α D T : Type} (is_mem_desc_equal : α → α → Bool)
    (is_blocked : α → Bool) (get_format_tag : α → Nat) (get_dims : α → D)
    (get_data_type : α → T) (memory_desc : D → T → Nat → Option α)
    (LAST_TAG dnnl_format_tag_last : Nat)
    (mgr : layout_id_manager_t α) (mem_desc : α) : Option (Option Nat × layout_id_manager_t α) :=
  let md := mem_desc
  let pos := find_if (fun m => is_mem_desc_equal m mem_desc) mgr.data_
  let first : Nat × layout_id_manager_t α :=
    if pos ≠ mgr.data_.length then (pos + LAST_TAG, mgr)
    else if is_blocked md ≠ true then
      let data := mgr.data_ ++ [mem_desc]
      (data.length - 1 + LAST_TAG, ⟨data⟩)
    else (0, mgr)
  let layout_id := first.1
  let mgr1 := first.2
  if is_blocked md = true then
    let format_tag := get_format_tag md
    if ¬ (format_tag > 0 ∧ format_tag < dnnl_format_tag_last) then
      let r := mgr1.set_mem_desc is_mem_desc_equal mem_desc
      match r.1 with
      | none => none
      | some layout_id => some (some (layout_id + LAST_TAG), r.2)
    else
      let dims := get_dims md
      let dtype := get_data_type md
      match memory_desc dims dtype layout_id with
      | none => none
      | some temp_md =>
        if is_mem_desc_equal md temp_md ≠ true then
          let r := mgr1.set_mem_desc is_mem_desc_equal mem_desc
          match r.1 with
          | none => none
          | some layout_id => some (some (layout_id + LAST_TAG), r.2)
        else some (some layout_id, mgr1)
  else some (some layout_id, mgr1)

/-- Modelled from the spec: the memory descriptor of the primitive library is not under
`src/`; the spec gives "dims, element type, format (plain tag or opaque blocked format,
possibly with extra flags)". Used for the evaluations on concrete descriptors. -/
structure memory_desc_t where
  dims : List Nat
  data_type : Nat
  blocked : Bool
  format_tag : Nat
  extra_flags : Nat
deriving Repr, DecidableEq

/-- Modelled from the spec: the constructor `memory::desc(dims, dtype, tag)` for the
evaluations: a blocked descriptor of that plain tag without extra flags; the tag `0`
(`undef`) gives the zero descriptor, a tag that is not below `format_tag_last` is refused. -/
def memory_desc_t.with_tag (format_tag_last : Nat) (dims : List Nat) (data_type : Nat)
    (tag : Nat) : Option memory_desc_t :=
  if tag = 0 then some ⟨[], 0, false, 0, 0⟩
  else if tag < format_tag_last then some ⟨dims, data_type, true, tag, 0⟩
  else none

/-! ## Concrete inputs used by the evaluations below -/

/-- An environment in which no variable is set. -/
def env_unset : env_t := fun _ => none

/-- An environment in which `DISABLE_DNNL_BACKEND=-1` and nothing else is set. -/
def env_disable_minus_one : env_t :=
  fun name => if name = "DISABLE_DNNL_BACKEND" then some (-1) else none

/-- An environment in which `DISABLE_DNNL_BACKEND=1` and nothing else is set. -/
def env_disable_one : env_t :=
  fun name => if name = "DISABLE_DNNL_BACKEND" then some 1 else none

/-- A pass manager on graphs that are lists of partition names: every pass of the registry
contributes one partition, named after the pass. -/
def run_passes_by_name (pm : pass_manager_t) (agraph : List String)
    (_policy : partition_policy_t) : List String :=
  agraph ++ pm.pass_registry_.passes_.map pass_base.pass_name

/-- A stream that is the log of its submissions: `execute` appends the executable and the
argument set it was given. -/
def execute_log (x : String) (p_stream : List (String × Nat)) (args : Nat)
    (_handles : handles_t) : List (String × Nat) :=
  p_stream ++ [(x, args)]

/-- A compiled sum kernel with two executables. -/
def sum_kernel_example : sum_t String Nat :=
  { execs_ := ["sum", "reorder"]
    resource_ctor_ :=
      { exec_args := [10, 11]
        mems_use_external_inputs := [(0, 0), (1, 1)]
        mems_use_external_outputs := [(2, 0)]
        mems_use_internal_temporary := [(3, 0)] }
    total_internal_temporary_size := 64 }

/-- A thread that has not run the kernel yet, on a stream holding one earlier submission. -/
def execute_state_example : execute_state (List (String × Nat)) Nat :=
  { p_stream := [("earlier", 7)]
    handles := fun _ => 0
    res_cache := none }

/-- An asynchronous stream that is the log of its submissions: `execute_sycl` appends the
executable with its argument set and dependencies, and returns a fresh event, numbered `100`
plus the position of the submission in the log. -/
def execute_sycl_log (x : String) (p_stream : List (String × Nat × List Nat)) (args : Nat)
    (_handles : handles_t) (deps : List Nat) : Nat × List (String × Nat × List Nat) :=
  (100 + p_stream.length, p_stream ++ [(x, args, deps)])

/-- A thread that has not run the kernel yet, on an empty asynchronous stream. -/
def sycl_state_example : execute_state (List (String × Nat × List Nat)) Nat :=
  { p_stream := []
    handles := fun _ => 0
    res_cache := none }

/-- Passes for the evaluations, on logical tensors that are numbers: the given tensors
become the inputs and outputs of the subgraph, layout propagation fills a layout in (adds
`1000`), op compilation produces the executable `sum`; every pass succeeds. -/
def sum_compile_env_example : sum_compile_env Unit String Nat Unit Nat Nat :=
  { make_subgraph := fun _ _ => ⟨[], [], [], ()⟩
    set_given_inputs_outputs := fun sg ins outs => (status_t.success, ⟨ins, outs, sg.execs_, ()⟩)
    lower_down := fun sg => (status_t.success, sg)
    fuse_to_dnnl_sum := fun sg => (status_t.success, sg)
    layout_propagation := fun sg =>
      (status_t.success, ⟨sg.ins_.map (· + 1000), sg.outs_.map (· + 1000), sg.execs_, ()⟩)
    memory_planner_run := fun mp sg => (status_t.success, mp + 1, sg)
    compile_ops := fun sg => (status_t.success, ⟨sg.ins_, sg.outs_, ["sum"], ()⟩)
    get_exec_args_set := fun _ => ⟨[10], [(0, 0), (1, 1)], [(2, 0)], []⟩ }

/-- Pattern groups for the evaluations: two groups register passes, out of priority
order. -/
def pattern_groups_example : pattern_groups :=
  { binary_fusion := [⟨"binary_post_ops", float.lit_8⟩, ⟨"binary_block", float.lit_20⟩]
    bn_fusion := []
    concat_fusion := []
    conv_block_fusion := [⟨"conv_block", float.numeric_limits_max⟩]
    conv_post_ops_fusion := []
    convtranspose_fusion := []
    matmul_fusion := []
    single_op_pass := [⟨"relu_pass", float.lit_8⟩]
    pool_fusion := []
    eltwise_fusion := []
    quantize_fusion := []
    interpolate_fusion := []
    softmax_fusion := []
    layernorm_fusion := []
    sum_fusion := [⟨"sum_pass", float.lit_20⟩]
    reorder_fusion := []
    shuffle_fusion := []
    reduction_fusion := [] }

/-! ### Lemmas on `find_if` -/

theorem find_if_le_length {α : Type} (p : α → Bool) (l : List α) :
    find_if p l ≤ l.length := by
  induction l with
  | nil => simp [find_if]
  | cons m ms ih =>
    by_cases h : p m = true
    · simp [find_if, h]
    · simp [find_if, h, ih]

theorem find_if_getElem? {α : Type} (p : α → Bool) (l : List α)
    (h : find_if p l ≠ l.length) : ∃ m, l[find_if p l]? = some m ∧ p m = true := by
  induction l with
  | nil => simp [find_if] at h
  | cons m ms ih =>
    by_cases hm : p m = true
    · exact ⟨m, by simp [find_if, hm], hm⟩
    · have h2 : find_if p ms ≠ ms.length := by
        intro hc
        apply h
        simp [find_if, hm, hc]
      obtain ⟨x, hx, hpx⟩ := ih h2
      exact ⟨x, by simpa [find_if, hm] using hx, hpx⟩

theorem find_if_not_before {α : Type} (p : α → Bool) (l : List α) (j : Nat) (m : α)
    (hj : j < find_if p l) (hm : l[j]? = some m) : p m = false := by
  induction l generalizing j with
  | nil => simp at hm
  | cons x xs ih =>
    by_cases hx : p x = true
    · simp [find_if, hx] at hj
    · cases j with
      | zero =>
        simp at hm
        subst hm
        simpa using hx
      | succ k =>
        simp [find_if, hx] at hj
        simp at hm
        exact ih k hj hm

theorem find_if_eq_length_iff {α : Type} (p : α → Bool) (l : List α) :
    find_if p l = l.length ↔ ∀ m ∈ l, p m = false := by
  induction l with
  | nil => simp [find_if]
  | cons x xs ih =>
    by_cases hx : p x = true
    · simp [find_if, hx]
    · simp [find_if, hx, ih]

/-- The first index holding an element that satisfies `p` is what `find_if` returns. -/
theorem find_if_eq_of_first {α : Type} (p : α → Bool) (l : List α) (i : Nat) (m : α)
    (hm : l[i]? = some m) (hp : p m = true)
    (hfirst : ∀ j x, j < i → l[j]? = some x → p x = false) : find_if p l = i := by
  have hne : find_if p l ≠ l.length := by
    intro hc
    have := (find_if_eq_length_iff p l).1 hc m (List.getElem?_mem hm)
    simp [hp] at this
  obtain ⟨y, hy, hpy⟩ := find_if_getElem? p l hne
  rcases Nat.lt_trichotomy (find_if p l) i with hlt | heq | hgt
  · have := hfirst _ y hlt hy
    simp [hpy] at this
  · exact heq
  · have := find_if_not_before p l i m hgt hm
    simp [hp] at this

theorem find_if_append_of_lt {α : Type} (p : α → Bool) (l l2 : List α)
    (h : find_if p l ≠ l.length) : find_if p (l ++ l2) = find_if p l := by
  induction l with
  | nil => simp [find_if] at h
  | cons x xs ih =>
    by_cases hx : p x = true
    · simp [find_if, hx]
    · have h2 : find_if p xs ≠ xs.length := by
        intro hc
        apply h
        simp [find_if, hx, hc]
      simp [find_if, hx, ih h2]

theorem find_if_append_of_eq {α : Type} (p : α → Bool) (l l2 : List α)
    (h : find_if p l = l.length) : find_if p (l ++ l2) = l.length + find_if p l2 := by
  induction l with
  | nil => simp
  | cons x xs ih =>
    by_cases hx : p x = true
    · simp [find_if, hx] at h
    · have h2 : find_if p xs = xs.length := by
        simpa [find_if, hx] using h
      simp [find_if, hx, ih h2]
      omega

/-! ### Lemmas on the layout-id manager -/

theorem set_mem_desc_found {α : Type} (eq : α → α → Bool) (mgr : layout_id_manager_t α)
    (d : α) (h : find_if (fun m => eq m d) mgr.data_ ≠ mgr.data_.length) :
    mgr.set_mem_desc eq d = (some (find_if (fun m => eq m d) mgr.data_), mgr) := by
  simp [layout_id_manager_t.set_mem_desc, h]

theorem set_mem_desc_appended {α : Type} (eq : α → α → Bool) (mgr : layout_id_manager_t α)
    (d : α) (h : find_if (fun m => eq m d) mgr.data_ = mgr.data_.length) :
    mgr.set_mem_desc eq d = (some mgr.data_.length, ⟨mgr.data_ ++ [d]⟩) := by
  simp [layout_id_manager_t.set_mem_desc, h]

theorem set_mem_desc_extends {α : Type} (eq : α → α → Bool) (mgr : layout_id_manager_t α)
    (d : α) : ∃ ext, (mgr.set_mem_desc eq d).2.data_ = mgr.data_ ++ ext := by
  by_cases h : find_if (fun m => eq m d) mgr.data_ = mgr.data_.length
  · exact ⟨[d], by rw [set_mem_desc_appended eq mgr d h]⟩
  · exact ⟨[], by rw [set_mem_desc_found eq mgr d h]; simp⟩

theorem set_mem_descs_extends {α : Type} (eq : α → α → Bool) (ds : List α)
    (mgr : layout_id_manager_t α) :
    ∃ ext, (layout_id_manager_t.set_mem_descs eq mgr ds).2.data_ = mgr.data_ ++ ext := by
  induction ds generalizing mgr with
  | nil => exact ⟨[], by simp [layout_id_manager_t.set_mem_descs]⟩
  | cons d ds ih =>
    obtain ⟨e1, h1⟩ := set_mem_desc_extends eq mgr d
    obtain ⟨e2, h2⟩ := ih (mgr.set_mem_desc eq d).2
    refine ⟨e1 ++ e2, ?_⟩
    simp only [layout_id_manager_t.set_mem_descs]
    rw [h2, h1, List.append_assoc]

theorem set_mem_desc_id_lt {α : Type} (eq : α → α → Bool) (mgr : layout_id_manager_t α)
    (d : α) : ∃ id, (mgr.set_mem_desc eq d).1 = some id ∧
      id < (mgr.set_mem_desc eq d).2.data_.length := by
  by_cases h : find_if (fun m => eq m d) mgr.data_ = mgr.data_.length
  · rw [set_mem_desc_appended eq mgr d h]
    exact ⟨_, rfl, by simp⟩
  · rw [set_mem_desc_found eq mgr d h]
    exact ⟨_, rfl, lt_of_le_of_ne (find_if_le_length _ _) h⟩

theorem set_mem_desc_first_equal {α : Type} (eq : α → α → Bool)
    (hrefl : ∀ x, eq x x = true) (mgr : layout_id_manager_t α) (d : α) :
    ∃ id, (mgr.set_mem_desc eq d).1 = some id ∧
      first_equal eq (mgr.set_mem_desc eq d).2.data_ d id := by
  by_cases h : find_if (fun m => eq m d) mgr.data_ = mgr.data_.length
  · rw [set_mem_desc_appended eq mgr d h]
    refine ⟨_, rfl, d, by simp, hrefl d, ?_⟩
    intro j x hj hx
    have hx2 : mgr.data_[j]? = some x := by
      rw [List.getElem?_append_left hj] at hx
      exact hx
    exact (find_if_eq_length_iff _ _).1 h x (List.getElem?_mem hx2)
  · rw [set_mem_desc_found eq mgr d h]
    obtain ⟨m, hm, hp⟩ := find_if_getElem? _ _ h
    exact ⟨_, rfl, m, hm, hp, fun j x hj hx => find_if_not_before _ _ j x hj hx⟩

theorem first_equal_append {α : Type} (eq : α → α → Bool) (l ext : List α) (d : α) (i : Nat)
    (h : first_equal eq l d i) : first_equal eq (l ++ ext) d i := by
  obtain ⟨m, hm, hp, hfirst⟩ := h
  have hi : i < l.length := by
    by_contra hc
    rw [List.getElem?_eq_none (by omega)] at hm
    simp at hm
  refine ⟨m, by rw [List.getElem?_append_left hi]; exact hm, hp, ?_⟩
  intro j x hj hx
  rw [List.getElem?_append_left (by omega)] at hx
  exact hfirst j x hj hx

theorem first_equal_unique {α : Type} (eq : α → α → Bool)
    (hsymm : ∀ x y, eq x y = true → eq y x = true)
    (htrans : ∀ x y z, eq x y = true → eq y z = true → eq x z = true)
    (l : List α) (a b : α) (i j : Nat) (hab : eq a b = true)
    (hi : first_equal eq l a i) (hj : first_equal eq l b j) : i = j := by
  obtain ⟨m, hm, hpm, hfm⟩ := hi
  obtain ⟨n, hn, hpn, hfn⟩ := hj
  rcases Nat.lt_trichotomy i j with hlt | heq | hgt
  · have h1 := hfn i m hlt hm
    have h2 := htrans m a b hpm hab
    simp [h1] at h2
  · exact heq
  · have h1 := hfm j n hgt hn
    have h2 := htrans n b a hpn (hsymm a b hab)
    simp [h1] at h2

theorem set_mem_desc_of_first_equal {α : Type} (eq : α → α → Bool)
    (mgr : layout_id_manager_t α) (d : α) (i : Nat) (h : first_equal eq mgr.data_ d i) :
    mgr.set_mem_desc eq d = (some i, mgr) := by
  obtain ⟨m, hm, hp, hfirst⟩ := h
  have hfi : find_if (fun m => eq m d) mgr.data_ = i :=
    find_if_eq_of_first (fun m => eq m d) mgr.data_ i m hm hp hfirst
  have hi : i < mgr.data_.length := by
    by_contra hc
    rw [List.getElem?_eq_none (by omega)] at hm
    simp at hm
  have hne : find_if (fun m => eq m d) mgr.data_ ≠ mgr.data_.length := by omega
  rw [set_mem_desc_found eq mgr d hne, hfi]

theorem get_mem_desc_eq_getElem? {α : Type} (mgr : layout_id_manager_t α) (id : Nat) :
    mgr.get_mem_desc id = mgr.data_[id]? := by
  unfold layout_id_manager_t.get_mem_desc
  split
  · rename_i h
    exact (List.getElem?_eq_none h).symm
  · rfl

theorem get_mem_desc_isSome_iff {α : Type} (mgr : layout_id_manager_t α) (id : Nat) :
    (mgr.get_mem_desc id).isSome = true ↔ id < mgr.data_.length := by
  rw [get_mem_desc_eq_getElem?]
  constructor
  · intro h
    by_contra hc
    rw [List.getElem?_eq_none (by omega)] at h
    simp at h
  · intro h
    rw [List.getElem?_eq_getElem h]
    rfl

theorem set_mem_descs_ids_lt {α : Type} (eq : α → α → Bool) (ds : List α)
    (mgr : layout_id_manager_t α) (id : Nat)
    (h : some id ∈ (layout_id_manager_t.set_mem_descs eq mgr ds).1) :
    id < (layout_id_manager_t.set_mem_descs eq mgr ds).2.data_.length := by
  induction ds generalizing mgr with
  | nil => simp [layout_id_manager_t.set_mem_descs] at h
  | cons d ds ih =>
    simp only [layout_id_manager_t.set_mem_descs, List.mem_cons] at h ⊢
    rcases h with h | h
    · obtain ⟨i, hi, hlt⟩ := set_mem_desc_id_lt eq mgr d
      obtain ⟨ext, hext⟩ := set_mem_descs_extends eq ds (mgr.set_mem_desc eq d).2
      rw [hi] at h
      have : id = i := by simpa using h
      rw [hext, List.length_append]
      omega
    · exact ih _ h

theorem set_mem_descs_ids_cover {α : Type} (eq : α → α → Bool) (ds : List α)
    (mgr : layout_id_manager_t α) (id : Nat) (hge : mgr.data_.length ≤ id)
    (hlt : id < (layout_id_manager_t.set_mem_descs eq mgr ds).2.data_.length) :
    some id ∈ (layout_id_manager_t.set_mem_descs eq mgr ds).1 := by
  induction ds generalizing mgr with
  | nil =>
    simp only [layout_id_manager_t.set_mem_descs] at hlt
    omega
  | cons d ds ih =>
    simp only [layout_id_manager_t.set_mem_descs, List.mem_cons] at hlt ⊢
    by_cases h : find_if (fun m => eq m d) mgr.data_ = mgr.data_.length
    · rw [set_mem_desc_appended eq mgr d h] at hlt ⊢
      by_cases hid : id = mgr.data_.length
      · left
        simp [hid]
      · right
        apply ih
        · simp
          omega
        · exact hlt
    · rw [set_mem_desc_found eq mgr d h] at hlt ⊢
      right
      exact ih mgr hge hlt

theorem set_mem_descs_ids_some {α : Type} (eq : α → α → Bool) (ds : List α)
    (mgr : layout_id_manager_t α) (r : Option Nat)
    (h : r ∈ (layout_id_manager_t.set_mem_descs eq mgr ds).1) : ∃ id, r = some id := by
  induction ds generalizing mgr with
  | nil => simp [layout_id_manager_t.set_mem_descs] at h
  | cons d ds ih =>
    simp only [layout_id_manager_t.set_mem_descs, List.mem_cons] at h
    rcases h with h | h
    · obtain ⟨i, hi, _⟩ := set_mem_desc_id_lt eq mgr d
      exact ⟨i, by rw [h, hi]⟩
    · exact ih _ h

theorem get_mem_desc_stable {α : Type} (eq : α → α → Bool) (cs : List α)
    (mgr : layout_id_manager_t α) (id : Nat) (m : α) (h : mgr.get_mem_desc id = some m) :
    (layout_id_manager_t.set_mem_descs eq mgr cs).2.get_mem_desc id = some m := by
  obtain ⟨ext, hext⟩ := set_mem_descs_extends eq cs mgr
  rw [get_mem_desc_eq_getElem?] at h ⊢
  have hid : id < mgr.data_.length := by
    by_contra hc
    rw [List.getElem?_eq_none (by omega)] at h
    simp at h
  rw [hext, List.getElem?_append_left hid]
  exact h

/-! ## Claims on the layout-id manager -/

/-- C1. Interning is injective: in every manager state (so in every state reached from the
empty manager by `set_mem_desc` calls), when `is_mem_desc_equal` is an equivalence relation,
the id returned by `set_mem_desc a` and the id returned by a later `set_mem_desc b`, with the
calls for `cs` in between, are equal if and only if `a` and `b` are equal under
`is_mem_desc_equal`. -/
theorem set_mem_desc_injective {α : Type} (eq : α → α → Bool)
    (hrefl : ∀ x, eq x x = true)
    (hsymm : ∀ x y, eq x y = true → eq y x = true)
    (htrans : ∀ x y z, eq x y = true → eq y z = true → eq x z = true)
    (mgr : layout_id_manager_t α) (a b : α) (cs : List α) :
    ((mgr.set_mem_desc eq a).1 =
        ((layout_id_manager_t.set_mem_descs eq (mgr.set_mem_desc eq a).2 cs).2.set_mem_desc
          eq b).1) ↔ eq a b = true := by
  obtain ⟨i, hi, hfa⟩ := set_mem_desc_first_equal eq hrefl mgr a
  obtain ⟨e1, he1⟩ := set_mem_descs_extends eq cs (mgr.set_mem_desc eq a).2
  generalize (layout_id_manager_t.set_mem_descs eq (mgr.set_mem_desc eq a).2 cs).2 = s2
    at he1 ⊢
  obtain ⟨j, hj, hfb⟩ := set_mem_desc_first_equal eq hrefl s2 b
  obtain ⟨e2, he2⟩ := set_mem_desc_extends eq s2 b
  have hfa2 : first_equal eq (s2.set_mem_desc eq b).2.data_ a i := by
    rw [he2, he1]
    exact first_equal_append eq _ e2 a i (first_equal_append eq _ e1 a i hfa)
  rw [hi, hj]
  constructor
  · intro h
    have hij : i = j := by simpa using h
    subst hij
    obtain ⟨m, hm, hpm, _⟩ := hfa2
    obtain ⟨n, hn, hpn, _⟩ := hfb
    have hmn : m = n := by
      rw [hm] at hn
      simpa using hn
    subst hmn
    exact htrans a m b (hsymm m a hpm) hpn
  · intro hab
    rw [first_equal_unique eq hsymm htrans _ a b i j hab hfa2 hfb]

/-- Witness of C1 on descriptors that are numbers under `==`. -/
theorem set_mem_desc_injective_witness :
    ((layout_id_manager_t.set_mem_desc (fun x y : Nat => x == y) ⟨[5, 7]⟩ 7).1 =
        ((layout_id_manager_t.set_mem_descs (fun x y : Nat => x == y)
          (layout_id_manager_t.set_mem_desc (fun x y : Nat => x == y) ⟨[5, 7]⟩ 7).2
            [9, 5]).2.set_mem_desc (fun x y : Nat => x == y) 7).1) ↔
      ((fun x y : Nat => x == y) 7 7) = true :=
  set_mem_desc_injective (fun x y : Nat => x == y) (by simp)
    (by intro x y h; simp at h; simp [h]) (by intro x y z h1 h2; simp at h1 h2; simp [h1, h2])
    ⟨[5, 7]⟩ 7 7 [9, 5]

/-- C2. Lookup round-trip: in every manager state, for a reflexive `is_mem_desc_equal`,
`set_mem_desc d` returns an id, `get_mem_desc` of that id in the state left behind returns a
descriptor, and that descriptor is equal to `d` under `is_mem_desc_equal`. -/
theorem get_mem_desc_set_mem_desc {α : Type} (eq : α → α → Bool)
    (hrefl : ∀ x, eq x x = true) (mgr : layout_id_manager_t α) (d : α) :
    ∃ id m, (mgr.set_mem_desc eq d).1 = some id ∧
      (mgr.set_mem_desc eq d).2.get_mem_desc id = some m ∧ eq m d = true := by
  obtain ⟨i, hi, m, hm, hp, _⟩ := set_mem_desc_first_equal eq hrefl mgr d
  exact ⟨i, m, hi, by rw [get_mem_desc_eq_getElem?]; exact hm, hp⟩

/-- Witness of C2 on descriptors that are numbers under `==`. -/
theorem get_mem_desc_set_mem_desc_witness :
    ∃ id m, (layout_id_manager_t.set_mem_desc (fun x y : Nat => x == y) ⟨[5, 7]⟩ 9).1
        = some id ∧
      (layout_id_manager_t.set_mem_desc (fun x y : Nat => x == y) ⟨[5, 7]⟩ 9).2.get_mem_desc id
        = some m ∧ ((fun x y : Nat => x == y) m 9) = true :=
  get_mem_desc_set_mem_desc (fun x y : Nat => x == y) (by simp) ⟨[5, 7]⟩ 9

/-- C3. Interning is idempotent: in every manager state, for a reflexive
`is_mem_desc_equal`, two calls `set_mem_desc d` in a row return the same id, which is
present, and the second call leaves the manager (the stored vector) unchanged. -/
theorem set_mem_desc_idempotent {α : Type} (eq : α → α → Bool)
    (hrefl : ∀ x, eq x x = true) (mgr : layout_id_manager_t α) (d : α) :
    (∃ id, (mgr.set_mem_desc eq d).1 = some id) ∧
    ((mgr.set_mem_desc eq d).2.set_mem_desc eq d).1 = (mgr.set_mem_desc eq d).1 ∧
    ((mgr.set_mem_desc eq d).2.set_mem_desc eq d).2.data_ = (mgr.set_mem_desc eq d).2.data_ := by
  obtain ⟨i, hi, hf⟩ := set_mem_desc_first_equal eq hrefl mgr d
  rw [set_mem_desc_of_first_equal eq _ d i hf, hi]
  exact ⟨⟨i, rfl⟩, rfl, rfl⟩

/-- Witness of C3 on descriptors that are numbers under `==`. -/
theorem set_mem_desc_idempotent_witness :
    (∃ id, (layout_id_manager_t.set_mem_desc (fun x y : Nat => x == y) ⟨[5, 7]⟩ 9).1
      = some id) ∧
    ((layout_id_manager_t.set_mem_desc (fun x y : Nat => x == y) ⟨[5, 7]⟩ 9).2.set_mem_desc
        (fun x y : Nat => x == y) 9).1
      = (layout_id_manager_t.set_mem_desc (fun x y : Nat => x == y) ⟨[5, 7]⟩ 9).1 ∧
    ((layout_id_manager_t.set_mem_desc (fun x y : Nat => x == y) ⟨[5, 7]⟩ 9).2.set_mem_desc
        (fun x y : Nat => x == y) 9).2.data_
      = (layout_id_manager_t.set_mem_desc (fun x y : Nat => x == y) ⟨[5, 7]⟩ 9).2.data_ :=
  set_mem_desc_idempotent (fun x y : Nat => x == y) (by simp) ⟨[5, 7]⟩ 9

/-- C4. In the state reached from the empty manager by the `set_mem_desc` calls for `ds`,
`get_mem_desc id` returns a descriptor if and only if `id` was returned by one of those calls,
and it returns `nullopt` for every other id. -/
theorem get_mem_desc_isSome_iff_returned {α : Type} (eq : α → α → Bool) (ds : List α)
    (id : Nat) :
    ((∃ m, (layout_id_manager_t.set_mem_descs eq layout_id_manager_t.empty ds).2.get_mem_desc id
        = some m) ↔
      some id ∈ (layout_id_manager_t.set_mem_descs eq layout_id_manager_t.empty ds).1) ∧
    (some id ∉ (layout_id_manager_t.set_mem_descs eq layout_id_manager_t.empty ds).1 →
      (layout_id_manager_t.set_mem_descs eq layout_id_manager_t.empty ds).2.get_mem_desc id
        = none) := by
  have key : (∃ m, (layout_id_manager_t.set_mem_descs eq layout_id_manager_t.empty
        ds).2.get_mem_desc id = some m) ↔
      some id ∈ (layout_id_manager_t.set_mem_descs eq layout_id_manager_t.empty ds).1 := by
    rw [← Option.isSome_iff_exists, get_mem_desc_isSome_iff]
    constructor
    · intro h
      exact set_mem_descs_ids_cover eq ds layout_id_manager_t.empty id
        (by simp [layout_id_manager_t.empty]) h
    · exact set_mem_descs_ids_lt eq ds layout_id_manager_t.empty id
  refine ⟨key, ?_⟩
  intro h
  rw [← key] at h
  cases hg : (layout_id_manager_t.set_mem_descs eq layout_id_manager_t.empty ds).2.get_mem_desc
    id with
  | none => rfl
  | some m => exact absurd ⟨m, hg⟩ h

/-- C5. `set_mem_desc d` always returns a present id. If some stored descriptor is equal
to `d`, the id is the index of the first such descriptor and the manager is unchanged;
otherwise `d` is appended as the last element, the vector grows by exactly one, and the id is
the previous vector length. -/
theorem set_mem_desc_spec {α : Type} (eq : α → α → Bool) (mgr : layout_id_manager_t α)
    (d : α) :
    (∃ id, (mgr.set_mem_desc eq d).1 = some id) ∧
    ((∃ m ∈ mgr.data_, eq m d = true) →
      ∃ i, (mgr.set_mem_desc eq d).1 = some i ∧ first_equal eq mgr.data_ d i ∧
        (mgr.set_mem_desc eq d).2 = mgr) ∧
    ((∀ m ∈ mgr.data_, eq m d = false) →
      (mgr.set_mem_desc eq d).2.data_ = mgr.data_ ++ [d] ∧
      (mgr.set_mem_desc eq d).2.data_.length = mgr.data_.length + 1 ∧
      (mgr.set_mem_desc eq d).1 = some mgr.data_.length) := by
  refine ⟨?_, ?_, ?_⟩
  · obtain ⟨i, hi, _⟩ := set_mem_desc_id_lt eq mgr d
    exact ⟨i, hi⟩
  · rintro ⟨m, hm, hp⟩
    have hne : find_if (fun m => eq m d) mgr.data_ ≠ mgr.data_.length := by
      intro hc
      have := (find_if_eq_length_iff _ _).1 hc m hm
      simp [hp] at this
    rw [set_mem_desc_found eq mgr d hne]
    obtain ⟨x, hx, hpx⟩ := find_if_getElem? _ _ hne
    exact ⟨_, rfl, ⟨x, hx, hpx, fun j y hj hy => find_if_not_before _ _ j y hj hy⟩, rfl⟩
  · intro hall
    have heq : find_if (fun m => eq m d) mgr.data_ = mgr.data_.length :=
      (find_if_eq_length_iff _ _).2 hall
    rw [set_mem_desc_appended eq mgr d heq]
    exact ⟨rfl, by simp, rfl⟩

/-- C6. Identifiers are dense and never reused: in the state reached from the empty manager
by the `set_mem_desc` calls for `ds`, the values returned by those calls are exactly the ids
`0, ..., n - 1` for `n` the current vector length, and for every id returned by one of them,
`get_mem_desc id` returns a descriptor and returns the same descriptor after the further
`set_mem_desc` calls for any `cs`. -/
theorem layout_ids_dense_and_stable {α : Type} (eq : α → α → Bool) (ds : List α) :
    (∀ r, r ∈ (layout_id_manager_t.set_mem_descs eq layout_id_manager_t.empty ds).1 ↔
      ∃ id, r = some id ∧
        id < (layout_id_manager_t.set_mem_descs eq layout_id_manager_t.empty
          ds).2.data_.length) ∧
    (∀ id cs, some id ∈ (layout_id_manager_t.set_mem_descs eq layout_id_manager_t.empty ds).1 →
      ∃ m, (layout_id_manager_t.set_mem_descs eq layout_id_manager_t.empty ds).2.get_mem_desc id
          = some m ∧
        (layout_id_manager_t.set_mem_descs eq
          (layout_id_manager_t.set_mem_descs eq layout_id_manager_t.empty ds).2
            cs).2.get_mem_desc id = some m) := by
  constructor
  · intro r
    constructor
    · intro h
      obtain ⟨id, hid⟩ := set_mem_descs_ids_some eq ds _ r h
      subst hid
      exact ⟨id, rfl, set_mem_descs_ids_lt eq ds _ id h⟩
    · rintro ⟨id, hid, hlt⟩
      subst hid
      exact set_mem_descs_ids_cover eq ds layout_id_manager_t.empty id
        (by simp [layout_id_manager_t.empty]) hlt
  · intro id cs h
    have hlt := set_mem_descs_ids_lt eq ds _ id h
    have hsome := (get_mem_desc_isSome_iff _ id).2 hlt
    obtain ⟨m, hm⟩ := Option.isSome_iff_exists.1 hsome
    exact ⟨m, hm, get_mem_desc_stable eq cs _ id m hm⟩

/-! ## Lemmas on `float` and on the registry filter -/

theorem float_literal_values :
    float.lit_20.toRat? = some 20 ∧ float.lit_8.toRat? = some 8 ∧
    float.numeric_limits_max.toRat? = some ((2 ^ 24 - 1) * 2 ^ 104) ∧
    float.infinity.toRat? = none ∧ float.infinity.isnan = false ∧
    float.quiet_NaN.isnan = true := by
  refine ⟨?_, ?_, ?_, ?_, ?_, ?_⟩
  · simp [float.toRat?, float.scaled_magnitude, float.lit_20]
    norm_num
  · simp [float.toRat?, float.scaled_magnitude, float.lit_8]
    norm_num
  · simp [float.toRat?, float.scaled_magnitude, float.numeric_limits_max]
    norm_num
  · simp [float.toRat?, float.infinity]
  · simp [float.isnan, float.infinity]
  · simp [float.isnan, float.quiet_NaN]

/-- Positive infinity is the one `float` greater than `numeric_limits<float>::max()`. -/
theorem float_gt_max_iff (x : float) :
    x.gt float.numeric_limits_max = true ↔ x = float.infinity := by
  obtain ⟨s, e, m, he, hm⟩ := x
  constructor
  · intro h
    simp only [float.gt, float.isnan, float.key, float.numeric_limits_max, Bool.and_eq_true,
      Bool.not_eq_true', decide_eq_true_eq, beq_eq_false_iff_ne, ne_eq, Bool.and_eq_false_imp,
      beq_iff_eq, bne_iff_ne, Decidable.not_not] at h
    obtain ⟨⟨hnan, _⟩, hlt⟩ := h
    cases s with
    | true =>
      simp at hlt
      omega
    | false =>
      simp at hlt
      have he2 : e = 255 := by omega
      subst he2
      have hm2 : m = 0 := by simpa using hnan rfl
      subst hm2
      rfl
  · intro h
    rw [h]
    decide

theorem scaled_magnitude_lt (a b : float)
    (h : a.exponent * 8388608 + a.mantissa < b.exponent * 8388608 + b.mantissa) :
    a.scaled_magnitude < b.scaled_magnitude := by
  obtain ⟨sa, e1, m1, he1, hm1⟩ := a
  obtain ⟨sb, e2, m2, he2, hm2⟩ := b
  simp only [float.scaled_magnitude] at h ⊢
  have hcase : e1 < e2 ∨ (e1 = e2 ∧ m1 < m2) := by omega
  rcases hcase with hlt | ⟨heq, hm⟩
  · have hQ : 2 ^ (e1 + 1) ≤ 2 ^ e2 := Nat.pow_le_pow_right (by norm_num) (by omega)
    have hP : 0 < 2 ^ e1 := Nat.pow_pos (by norm_num)
    rw [pow_succ] at hQ
    have he2' : e2 ≠ 0 := by omega
    by_cases h0 : e1 = 0
    · subst h0
      simp only [if_true, if_neg he2']
      simp at hQ
      nlinarith
    · simp only [if_neg h0, if_neg he2']
      nlinarith
  · subst heq
    by_cases h0 : e1 = 0
    · simp only [if_pos h0]
      omega
    · simp only [if_neg h0]
      have hP : 0 < 2 ^ e1 := Nat.pow_pos (by norm_num)
      nlinarith

theorem scaled_magnitude_eq_zero_iff (a : float) :
    a.scaled_magnitude = 0 ↔ a.exponent * 8388608 + a.mantissa = 0 := by
  obtain ⟨sa, e1, m1, he1, hm1⟩ := a
  simp only [float.scaled_magnitude]
  by_cases h0 : e1 = 0
  · simp [h0]
  · simp only [if_neg h0]
    have hP : 0 < 2 ^ e1 := Nat.pow_pos (by norm_num)
    constructor
    · intro h
      have := Nat.mul_pos (show 0 < 8388608 + m1 by omega) hP
      omega
    · intro h
      omega

theorem scaled_magnitude_lt_iff (a b : float) :
    a.scaled_magnitude < b.scaled_magnitude ↔
      a.exponent * 8388608 + a.mantissa < b.exponent * 8388608 + b.mantissa := by
  constructor
  · intro h
    by_contra hc
    rcases Nat.lt_or_ge (b.exponent * 8388608 + b.mantissa)
      (a.exponent * 8388608 + a.mantissa) with h1 | h1
    · have := scaled_magnitude_lt b a h1
      omega
    · have heq : a.exponent * 8388608 + a.mantissa = b.exponent * 8388608 + b.mantissa := by
        omega
      have hm1 := a.mantissa_lt
      have hm2 := b.mantissa_lt
      have he : a.exponent = b.exponent := by omega
      have hm : a.mantissa = b.mantissa := by omega
      simp only [float.scaled_magnitude, he, hm] at h
      omega
  · exact scaled_magnitude_lt a b

/-- The comparison `>` of the model is the order of the rational values on finite
`float`s. -/
theorem float_gt_iff_toRat_lt (a b : float) (qa qb : ℚ) (ha : a.toRat? = some qa)
    (hb : b.toRat? = some qb) : a.gt b = true ↔ qb < qa := by
  have hea : a.exponent ≠ 255 := by
    intro hc
    simp [float.toRat?, hc] at ha
  have heb : b.exponent ≠ 255 := by
    intro hc
    simp [float.toRat?, hc] at hb
  simp only [float.toRat?, if_neg hea, Option.some.injEq] at ha
  simp only [float.toRat?, if_neg heb, Option.some.injEq] at hb
  have hna : a.isnan = false := by simp [float.isnan, hea]
  have hnb : b.isnan = false := by simp [float.isnan, heb]
  have hlt := scaled_magnitude_lt_iff a b
  have hlt2 := scaled_magnitude_lt_iff b a
  have hza := scaled_magnitude_eq_zero_iff a
  have hzb := scaled_magnitude_eq_zero_iff b
  have hpos : (0 : ℚ) < 2 ^ 150 := by positivity
  rw [← ha, ← hb, div_lt_div_iff_of_pos_right hpos]
  simp only [float.gt, hna, hnb, Bool.not_false, Bool.true_and, decide_eq_true_eq, float.key]
  have hca : (0 : ℚ) ≤ (a.scaled_magnitude : ℚ) := Nat.cast_nonneg _
  have hcb : (0 : ℚ) ≤ (b.scaled_magnitude : ℚ) := Nat.cast_nonneg _
  cases hsa : a.sign <;> cases hsb : b.sign
  · simp only [Bool.false_eq_true, if_false, one_mul, Nat.cast_lt]
    rw [hlt2]
    omega
  · simp only [Bool.false_eq_true, if_false, if_true, one_mul]
    constructor
    · intro h
      have hne : ¬ (a.scaled_magnitude = 0 ∧ b.scaled_magnitude = 0) := by
        rw [hza, hzb]
        omega
      have : (0 : ℚ) < (a.scaled_magnitude : ℚ) ∨ (0 : ℚ) < (b.scaled_magnitude : ℚ) := by
        by_cases h0 : a.scaled_magnitude = 0
        · right
          exact Nat.cast_pos.2 (Nat.pos_of_ne_zero (fun hb0 => hne ⟨h0, hb0⟩))
        · left
          exact Nat.cast_pos.2 (Nat.pos_of_ne_zero h0)
      rcases this with h1 | h1 <;> linarith
    · intro h
      by_contra hc
      have h1 : a.exponent * 8388608 + a.mantissa = 0 := by omega
      have h2 : b.exponent * 8388608 + b.mantissa = 0 := by omega
      rw [← hza] at h1
      rw [← hzb] at h2
      simp [h1, h2] at h
  · simp only [Bool.false_eq_true, if_false, if_true, one_mul]
    constructor
    · intro h
      omega
    · intro h
      linarith
  · simp only [if_true, neg_one_mul, neg_lt_neg_iff, Nat.cast_lt]
    rw [hlt]
    omega

theorem float_not_gt_eq_le (a b : float) (ha : a.isnan = false) (hb : b.isnan = false) :
    (!a.gt b) = a.le b := by
  simp only [float.gt, float.le, ha, hb, Bool.not_false, Bool.true_and]
  by_cases h : b.key < a.key
  · simp [h]
  · simp [h, not_lt.1 h]

theorem filter_passes_eq (ths : float) (l : List pass_base) (acc : pass_registry_t) :
    (filter_passes ths l acc).passes_
      = acc.passes_ ++ l.filter (fun p => !p.priority.gt ths) := by
  induction l generalizing acc with
  | nil => simp [filter_passes]
  | cons p ps ih =>
    by_cases h : p.priority.gt ths = true
    · simp [filter_passes, h, ih]
    · simp [filter_passes, h, ih, pass_registry_t.register_pass]

/-! ## Claims on `get_partitions` -/

/-- C7, as stated, fails. Under fusion with large partitions enabled the threshold is
`numeric_limits<float>::max()`, not positive infinity: a pattern of priority `+inf`, which is
`<= +inf`, is dropped. Under debug a pattern whose priority is NaN is retained although its
priority is not `<= 8`. -/
theorem get_partitions_threshold_counterexample :
    ((get_partitions (fun _ g _ => g) env_unset ⟨[⟨"p", float.infinity⟩]⟩ ()
        partition_policy_t.fusion).pm = some ⟨⟨[]⟩⟩ ∧
      float.le float.infinity float.infinity = true) ∧
    ((get_partitions (fun _ g _ => g) env_unset ⟨[⟨"q", float.quiet_NaN⟩]⟩ ()
        partition_policy_t.debug).pm = some ⟨⟨[⟨"q", float.quiet_NaN⟩]⟩⟩ ∧
      float.le float.quiet_NaN float.lit_8 = false) := by
  decide

/-- C7, amended. For every registry, policy and environment, a call of `get_partitions`
that is not disabled hands the pass manager the registry of exactly the registered patterns
for which `priority > threshold` is false, in their original relative order (a disabled call
constructs no pass manager). The threshold is `numeric_limits<float>::max()` for fusion with
large partitions enabled, `20.0` for fusion with large partitions disabled, and `8.0` for
debug regardless of the toggle. For a priority that is not NaN, `priority > threshold` is
false exactly when `priority <= threshold`; and only the priority `+inf` is greater than
`numeric_limits<float>::max()`. -/
theorem get_partitions_filtered_registry {G : Type}
    (run_passes : pass_manager_t → G → partition_policy_t → G) (env : env_t)
    (registry : pass_registry_t) (agraph : G) (policy : partition_policy_t) :
    ((get_partitions run_passes env registry agraph policy).pm =
      if getenv_int_internal env "DISABLE_DNNL_BACKEND" 0 > 0 then none
      else some ⟨⟨registry.passes_.filter (fun p => !p.priority.gt
        (priority_ths policy (decide (getenv_int_internal env "ENABLE_LARGE_PARTITION" 1 > 0))))⟩⟩) ∧
    (priority_ths partition_policy_t.fusion true = float.numeric_limits_max ∧
      priority_ths partition_policy_t.fusion false = float.lit_20 ∧
      priority_ths partition_policy_t.debug true = float.lit_8 ∧
      priority_ths partition_policy_t.debug false = float.lit_8) ∧
    (∀ (p : pass_base) (large : Bool), p.priority.isnan = false →
      (!p.priority.gt (priority_ths policy large)) = p.priority.le (priority_ths policy large)) ∧
    (∀ p : pass_base, p.priority.gt float.numeric_limits_max = true ↔
      p.priority = float.infinity) := by
  refine ⟨?_, ⟨rfl, rfl, rfl, rfl⟩, ?_, fun p => float_gt_max_iff p.priority⟩
  · unfold get_partitions
    by_cases h : getenv_int_internal env "DISABLE_DNNL_BACKEND" 0 > 0
    · simp [h]
    · have hf := filter_passes_eq
        (priority_ths policy (decide (getenv_int_internal env "ENABLE_LARGE_PARTITION" 1 > 0)))
        registry.get_passes ⟨[]⟩
      simp only [h, decide_False, Bool.false_eq_true, if_false]
      simp only [List.nil_append, pass_registry_t.get_passes] at hf
      simp only [pass_registry_t.get_passes]
      rw [← hf]
  · intro p large hp
    apply float_not_gt_eq_le _ _ hp
    cases policy <;> cases large <;> decide

/-- C8, as stated, fails. With `DISABLE_DNNL_BACKEND=-1` the integer value is non-zero, yet
`get_partitions` constructs the pass manager on the registry, runs it, and the graph
changes. -/
theorem get_partitions_nonzero_counterexample :
    getenv_int_internal env_disable_minus_one "DISABLE_DNNL_BACKEND" 0 ≠ 0 ∧
    (get_partitions run_passes_by_name env_disable_minus_one ⟨[⟨"p", float.lit_8⟩]⟩ []
      partition_policy_t.fusion).pm = some ⟨⟨[⟨"p", float.lit_8⟩]⟩⟩ ∧
    (get_partitions run_passes_by_name env_disable_minus_one ⟨[⟨"p", float.lit_8⟩]⟩ []
      partition_policy_t.fusion).agraph = ["p"] := by
  decide

/-- C8, amended. For every graph and every policy, whenever the integer value of
`DISABLE_DNNL_BACKEND` is greater than zero, `get_partitions` returns success, constructs and
runs no pass manager, and leaves the graph unchanged. -/
theorem get_partitions_disabled {G : Type}
    (run_passes : pass_manager_t → G → partition_policy_t → G) (env : env_t)
    (registry : pass_registry_t) (agraph : G) (policy : partition_policy_t)
    (h : getenv_int_internal env "DISABLE_DNNL_BACKEND" 0 > 0) :
    (get_partitions run_passes env registry agraph policy).status = status_t.success ∧
    (get_partitions run_passes env registry agraph policy).agraph = agraph ∧
    (get_partitions run_passes env registry agraph policy).pm = none := by
  simp [get_partitions, h]

/-- Witness of C8, amended, with `DISABLE_DNNL_BACKEND=1`. -/
theorem get_partitions_disabled_witness :
    getenv_int_internal env_disable_one "DISABLE_DNNL_BACKEND" 0 > 0 ∧
    ((get_partitions run_passes_by_name env_disable_one ⟨[⟨"p", float.lit_8⟩]⟩ ["g"]
        partition_policy_t.fusion).status = status_t.success ∧
      (get_partitions run_passes_by_name env_disable_one ⟨[⟨"p", float.lit_8⟩]⟩ ["g"]
        partition_policy_t.fusion).agraph = ["g"] ∧
      (get_partitions run_passes_by_name env_disable_one ⟨[⟨"p", float.lit_8⟩]⟩ ["g"]
        partition_policy_t.fusion).pm = none) :=
  ⟨by decide, get_partitions_disabled run_passes_by_name env_disable_one
    ⟨[⟨"p", float.lit_8⟩]⟩ ["g"] partition_policy_t.fusion (by decide)⟩

/-! ## Claims on the kernels -/

/-- C9. `kernel_base_t::compile` returns the first non-success status. If `compile_impl`
returns a status other than success, `compile` leaves exactly what `compile_impl` left, with
that status, whatever `prepare_inplace_pairs_impl` is (it is not invoked); otherwise `compile`
returns the status of `prepare_inplace_pairs_impl`, run on the kernel that `compile_impl`
left. Hence `compile` returns success if and only if both steps return success. -/
theorem kernel_compile_first_failure {K P E LT : Type}
    (compile_impl : K → P → E → List LT → List LT → compile_result K LT)
    (prepare_inplace_pairs_impl : K → status_t × K)
    (k : K) (part : P) (aengine : E) (inputs outputs : List LT) :
    ((compile_impl k part aengine inputs outputs).status ≠ status_t.success →
      kernel_base_t.compile compile_impl prepare_inplace_pairs_impl k part aengine inputs outputs
        = compile_impl k part aengine inputs outputs) ∧
    ((compile_impl k part aengine inputs outputs).status = status_t.success →
      (kernel_base_t.compile compile_impl prepare_inplace_pairs_impl k part aengine inputs
          outputs).status
        = (prepare_inplace_pairs_impl (compile_impl k part aengine inputs outputs).kernel).1 ∧
      (kernel_base_t.compile compile_impl prepare_inplace_pairs_impl k part aengine inputs
          outputs).kernel
        = (prepare_inplace_pairs_impl (compile_impl k part aengine inputs outputs).kernel).2) ∧
    ((kernel_base_t.compile compile_impl prepare_inplace_pairs_impl k part aengine inputs
          outputs).status = status_t.success ↔
      (compile_impl k part aengine inputs outputs).status = status_t.success ∧
      (prepare_inplace_pairs_impl (compile_impl k part aengine inputs outputs).kernel).1
        = status_t.success) := by
  by_cases h : (compile_impl k part aengine inputs outputs).status = status_t.success
  · simp [kernel_base_t.compile, h]
  · simp [kernel_base_t.compile, h]

/-! ### Lemmas on `execute_impl` -/

theorem bind_external_some (tensors : List tensor_t) (l : List (Nat × Nat))
    (handles : handles_t) (h : ∀ p ∈ l, p.2 < tensors.length) :
    ∃ handles2, bind_external tensors l handles = some handles2 := by
  induction l generalizing handles with
  | nil => exact ⟨handles, rfl⟩
  | cons p ps ih =>
    have hp : p.2 < tensors.length := h p (List.mem_cons_self _ _)
    simp only [bind_external, List.getElem?_eq_getElem hp]
    exact ih _ (fun q hq => h q (List.mem_cons_of_mem _ hq))

theorem prepare_args_set_some {A : Type} (internal_temporary_grantor : Nat → Nat → Nat)
    (res : execution_args_set_t A) (inputs outputs : List tensor_t) (scratchpad_buffer : Nat)
    (handles : handles_t)
    (hin : ∀ p ∈ res.mems_use_external_inputs, p.2 < inputs.length)
    (hout : ∀ p ∈ res.mems_use_external_outputs, p.2 < outputs.length) :
    ∃ handles2, prepare_args_set internal_temporary_grantor res inputs outputs
      scratchpad_buffer handles = some handles2 := by
  obtain ⟨h1, hh1⟩ := bind_external_some inputs _ handles hin
  obtain ⟨h2, hh2⟩ := bind_external_some outputs _ h1 hout
  refine ⟨bind_internal (internal_temporary_grantor scratchpad_buffer)
    res.mems_use_internal_temporary h2, ?_⟩
  simp [prepare_args_set, hh1, hh2]

theorem execute_loop_eq {X A S : Type} (execute : X → S → A → handles_t → S)
    (execs_ : List X) (exec_args : List A) (handles : handles_t)
    (hlen : execs_.length ≤ exec_args.length) (n i : Nat) (p_stream : S)
    (hn : i + n = execs_.length) :
    execute_loop execute execs_ exec_args handles n i p_stream
      = some (((execs_.drop i).zip (exec_args.drop i)).foldl
          (fun s xa => execute xa.1 s xa.2 handles) p_stream) := by
  induction n generalizing i p_stream with
  | zero =>
    have hi : execs_.length ≤ i := by omega
    simp [execute_loop, List.drop_eq_nil_of_le hi]
  | succ n ih =>
    have hi : i < execs_.length := by omega
    have hi2 : i < exec_args.length := by omega
    rw [List.drop_eq_getElem_cons hi, List.drop_eq_getElem_cons hi2]
    simp only [execute_loop, List.getElem?_eq_getElem hi, List.getElem?_eq_getElem hi2,
      List.zip_cons_cons, List.foldl_cons]
    exact ih (i + 1) _ (by omega)

/-- C10. For a compiled sum kernel with `N` executables, an argument set for each of them in
the args set of the calling thread, and tensors for every external input and output index,
`execute_impl` returns success, and the stream it leaves is the stream it found with the
executables submitted one after the other in increasing index order `0, ..., N - 1`, each
exactly once, executable `i` on the `i`-th argument set. -/
theorem sum_execute_impl_in_order {X A S : Type} (execute : X → S → A → handles_t → S)
    (internal_temporary_grantor : Nat → Nat → Nat) (allocate : Nat → Nat)
    (kernel : sum_t X A) (st : execute_state S A) (inputs outputs : List tensor_t)
    (hargs : kernel.execs_.length
      ≤ (get_or_add st.res_cache kernel.resource_ctor_).1.exec_args.length)
    (hin : ∀ p ∈ (get_or_add st.res_cache kernel.resource_ctor_).1.mems_use_external_inputs,
      p.2 < inputs.length)
    (hout : ∀ p ∈ (get_or_add st.res_cache kernel.resource_ctor_).1.mems_use_external_outputs,
      p.2 < outputs.length) :
    ∃ r, kernel.execute_impl execute internal_temporary_grantor allocate st inputs outputs
        = some (status_t.success, r) ∧
      r.p_stream = (kernel.execs_.zip
          (get_or_add st.res_cache kernel.resource_ctor_).1.exec_args).foldl
        (fun s xa => execute xa.1 s xa.2 r.handles) st.p_stream ∧
      (kernel.execs_.zip (get_or_add st.res_cache kernel.resource_ctor_).1.exec_args).length
        = kernel.execs_.length ∧
      ∀ (i : Nat) (hi : i < kernel.execs_.length)
        (hi2 : i < (get_or_add st.res_cache kernel.resource_ctor_).1.exec_args.length),
        (kernel.execs_.zip (get_or_add st.res_cache kernel.resource_ctor_).1.exec_args)[i]?
          = some (kernel.execs_[i],
              (get_or_add st.res_cache kernel.resource_ctor_).1.exec_args[i]) := by
  obtain ⟨handles, hh⟩ := prepare_args_set_some internal_temporary_grantor
    (get_or_add st.res_cache kernel.resource_ctor_).1 inputs outputs
    (temporary_scratchpad_t allocate kernel.total_internal_temporary_size).buffer
    st.handles hin hout
  have hloop := execute_loop_eq execute kernel.execs_
    (get_or_add st.res_cache kernel.resource_ctor_).1.exec_args handles hargs
    kernel.execs_.length 0 st.p_stream (by omega)
  simp only [List.drop_zero] at hloop
  refine ⟨⟨(kernel.execs_.zip
      (get_or_add st.res_cache kernel.resource_ctor_).1.exec_args).foldl
        (fun s xa => execute xa.1 s xa.2 handles) st.p_stream, handles,
    (get_or_add st.res_cache kernel.resource_ctor_).2⟩, ?_, rfl, ?_, ?_⟩
  · simp only [temporary_scratchpad_t] at hh
    simp [sum_t.execute_impl, temporary_scratchpad_t, hh, hloop]
  · rw [List.length_zip]
    omega
  · intro i hi hi2
    have hz : i < (kernel.execs_.zip
        (get_or_add st.res_cache kernel.resource_ctor_).1.exec_args).length := by
      rw [List.length_zip]
      omega
    rw [List.getElem?_eq_getElem hz, List.getElem_zip]

/-- Witness of C10: a kernel of two executables on a stream that logs its submissions. -/
theorem sum_execute_impl_in_order_witness :
    sum_kernel_example.execs_.length
      ≤ (get_or_add execute_state_example.res_cache
          sum_kernel_example.resource_ctor_).1.exec_args.length ∧
    ∃ r, sum_kernel_example.execute_impl execute_log (fun buffer key => buffer + key)
          (fun _ => 4096) execute_state_example [⟨100⟩, ⟨101⟩] [⟨200⟩]
        = some (status_t.success, r) ∧
      r.p_stream = (sum_kernel_example.execs_.zip
          (get_or_add execute_state_example.res_cache
            sum_kernel_example.resource_ctor_).1.exec_args).foldl
        (fun s xa => execute_log xa.1 s xa.2 r.handles) execute_state_example.p_stream ∧
      (sum_kernel_example.execs_.zip (get_or_add execute_state_example.res_cache
          sum_kernel_example.resource_ctor_).1.exec_args).length
        = sum_kernel_example.execs_.length ∧
      ∀ (i : Nat) (_hi : i < sum_kernel_example.execs_.length)
        (hi2 : i < (get_or_add execute_state_example.res_cache
          sum_kernel_example.resource_ctor_).1.exec_args.length),
        (sum_kernel_example.execs_.zip (get_or_add execute_state_example.res_cache
            sum_kernel_example.resource_ctor_).1.exec_args)[i]?
          = some (sum_kernel_example.execs_[i],
              (get_or_add execute_state_example.res_cache
                sum_kernel_example.resource_ctor_).1.exec_args[i]) :=
  ⟨by decide, sum_execute_impl_in_order execute_log (fun buffer key => buffer + key)
    (fun _ => 4096) sum_kernel_example execute_state_example [⟨100⟩, ⟨101⟩] [⟨200⟩]
    (by decide) (by decide) (by decide)⟩

/-- The run of the witness kernel, evaluated: the log holds the two executables in index
order, each with its own argument set, after what the stream already held. -/
theorem sum_execute_impl_example_log :
    (sum_kernel_example.execute_impl execute_log (fun buffer key => buffer + key)
        (fun _ => 4096) execute_state_example [⟨100⟩, ⟨101⟩] [⟨200⟩]).map
      (fun r => (r.1, r.2.p_stream, r.2.handles 0, r.2.handles 2, r.2.handles 3))
      = some (status_t.success, [("earlier", 7), ("sum", 10), ("reorder", 11)],
          100, 200, 4096) := by
  decide

/-! ### Lemmas on `sycl_execute_impl` -/

theorem chained_head {X A Ev : Type} (deps : List Ev) (new : List (sycl_submission X A Ev))
    (r : sycl_submission X A Ev) (h : chained deps new) (h0 : new[0]? = some r) :
    r.deps = deps := by
  cases new with
  | nil => simp at h0
  | cons a rest =>
    simp only [List.getElem?_cons_zero, Option.some.injEq] at h0
    subst h0
    exact h.1

theorem chained_succ {X A Ev : Type} (deps : List Ev) (new : List (sycl_submission X A Ev))
    (h : chained deps new) (k : Nat) (r r2 : sycl_submission X A Ev)
    (hk : new[k]? = some r) (hk1 : new[k + 1]? = some r2) : r2.deps = [r.event] := by
  induction new generalizing deps k with
  | nil => simp at hk
  | cons a rest ih =>
    simp only [List.getElem?_cons_succ] at hk1
    cases k with
    | zero =>
      simp only [List.getElem?_cons_zero, Option.some.injEq] at hk
      subst hk
      exact chained_head _ rest r2 h.2 hk1
    | succ j =>
      simp only [List.getElem?_cons_succ] at hk
      exact ih [a.event] h.2 j hk hk1

theorem chained_closure {X A Ev : Type} (log : List (sycl_submission X A Ev))
    (deps : List Ev) (new : List (sycl_submission X A Ev)) (hsub : ∀ r ∈ new, r ∈ log)
    (hch : chained deps new) (last : sycl_submission X A Ev)
    (hlast : new.getLast? = some last) :
    (∀ r ∈ new, in_dependency_closure log last.event r.event) ∧
    (∀ w ∈ deps, in_dependency_closure log last.event w) := by
  induction new generalizing deps with
  | nil => simp at hlast
  | cons a rest ih =>
    have ha : a ∈ log := hsub a (List.mem_cons_self _ _)
    cases rest with
    | nil =>
      simp only [List.getLast?_singleton, Option.some.injEq] at hlast
      subst hlast
      constructor
      · intro r hr
        simp only [List.mem_singleton] at hr
        subst hr
        exact Relation.ReflTransGen.refl
      · intro w hw
        exact Relation.ReflTransGen.single ⟨a, ha, rfl, by rw [hch.1]; exact hw⟩
    | cons b rest2 =>
      have hlast2 : (b :: rest2).getLast? = some last := by
        rw [List.getLast?_cons_cons] at hlast
        exact hlast
      obtain ⟨h1, h2⟩ := ih [a.event] (fun r hr => hsub r (List.mem_cons_of_mem _ hr)) hch.2
        hlast2
      have hla : in_dependency_closure log last.event a.event :=
        h2 a.event (List.mem_singleton_self _)
      constructor
      · intro r hr
        rcases List.mem_cons.1 hr with hr | hr
        · subst hr
          exact hla
        · exact h1 r hr
      · intro w hw
        exact Relation.ReflTransGen.tail hla ⟨a, ha, rfl, by rw [hch.1]; exact hw⟩

theorem sycl_execute_loop_spec {X A S Ev : Type}
    (execute_sycl : X → S → A → handles_t → List Ev → Ev × S)
    (execs_ : List X) (exec_args : List A) (handles : handles_t)
    (hlen : execs_.length ≤ exec_args.length) (n i : Nat) (st : sycl_loop_state X A S Ev)
    (hn : i + n = execs_.length) :
    ∃ st2 new, sycl_execute_loop execute_sycl execs_ exec_args handles n i st = some st2 ∧
      st2.submitted = st.submitted ++ new ∧ new.length = n ∧
      (∀ k r, new[k]? = some r →
        execs_[i + k]? = some r.exec ∧ exec_args[i + k]? = some r.args) ∧
      chained st.deps new ∧
      (0 < n → ∃ last, new.getLast? = some last ∧ st2.returned_event = last.event) ∧
      ∃ streams : List S, streams.length = n + 1 ∧ streams[0]? = some st.p_stream ∧
        streams[n]? = some st2.p_stream ∧
        ∀ k r, new[k]? = some r → ∃ s s2, streams[k]? = some s ∧ streams[k + 1]? = some s2 ∧
          execute_sycl r.exec s r.args handles r.deps = (r.event, s2) := by
  induction n generalizing i st with
  | zero =>
    exact ⟨st, [], rfl, by simp, rfl, by simp, trivial, by simp,
      [st.p_stream], rfl, by simp, by simp, by simp⟩
  | succ n ih =>
    have hi : i < execs_.length := by omega
    have hi2 : i < exec_args.length := by omega
    obtain ⟨st2, new, hrun, hsub, hlength, hidx, hch, hlast, streams, hsl, hs0, hsn, hcall⟩ :=
      ih (i + 1) ⟨(execute_sycl execs_[i] st.p_stream exec_args[i] handles st.deps).2,
        [(execute_sycl execs_[i] st.p_stream exec_args[i] handles st.deps).1],
        (execute_sycl execs_[i] st.p_stream exec_args[i] handles st.deps).1,
        st.submitted ++ [⟨execs_[i], exec_args[i], st.deps,
          (execute_sycl execs_[i] st.p_stream exec_args[i] handles st.deps).1⟩]⟩ (by omega)
    refine ⟨st2, ⟨execs_[i], exec_args[i], st.deps,
      (execute_sycl execs_[i] st.p_stream exec_args[i] handles st.deps).1⟩ :: new, ?_, ?_, ?_,
      ?_, ?_, ?_, st.p_stream :: streams, ?_, ?_, ?_, ?_⟩
    · simp only [sycl_execute_loop, List.getElem?_eq_getElem hi, List.getElem?_eq_getElem hi2]
      exact hrun
    · rw [hsub]
      simp
    · simp [hlength]
    · intro k r hk
      cases k with
      | zero =>
        simp only [List.getElem?_cons_zero, Option.some.injEq] at hk
        subst hk
        simp [List.getElem?_eq_getElem hi, List.getElem?_eq_getElem hi2]
      | succ j =>
        simp only [List.getElem?_cons_succ] at hk
        have := hidx j r hk
        have he : i + (j + 1) = i + 1 + j := by omega
        rw [he]
        exact this
    · exact ⟨rfl, hch⟩
    · intro _
      cases new with
      | nil =>
        have hn0 : n = 0 := by simpa using hlength.symm
        subst hn0
        simp only [sycl_execute_loop, Option.some.injEq] at hrun
        subst hrun
        exact ⟨_, rfl, rfl⟩
      | cons b rest =>
        have hpos : 0 < n := by
          rw [← hlength]
          simp
        obtain ⟨last, hl, hret⟩ := hlast hpos
        exact ⟨last, by rw [List.getLast?_cons_cons]; exact hl, hret⟩
    · simp [hsl]
    · simp
    · simp only [List.getElem?_cons_succ]
      exact hsn
    · intro k r hk
      cases k with
      | zero =>
        simp only [List.getElem?_cons_zero, Option.some.injEq] at hk
        subst hk
        exact ⟨st.p_stream, _, by simp, by simpa using hs0, rfl⟩
      | succ j =>
        simp only [List.getElem?_cons_succ] at hk ⊢
        exact hcall j r hk

/-- C11. In the asynchronous execution of a compiled sum kernel with `N >= 1` executables
(an argument set for each, tensors for every external index), `sycl_execute_impl` returns
success after `N` calls of `execute_sycl`, call `k` on executable `k` and argument set `k`;
call `0` is given the caller's wait-events, every call `k + 1` exactly the event returned by
call `k`; the event written to the caller's `sycl_event` (when the pointer is not null), and
given to the scratchpad, is the event of call `N - 1`; and the dependency closure of that
event contains the event of every call and every wait-event of the caller. Every recorded
call is a call of `execute_sycl`: there are streams `s_0, ..., s_N`, from the stream found to
the stream left, such that call `k` ran `execute_sycl` on `s_k` with its executable, argument
set (memory objects bound by `prepare_args_set`) and dependencies, and gave the recorded event
and `s_(k+1)`. -/
theorem sum_sycl_execute_impl_chain {X A S Ev : Type}
    (execute_sycl : X → S → A → handles_t → List Ev → Ev × S)
    (internal_temporary_grantor : Nat → Nat → Nat) (allocate : Nat → Nat) (default_event : Ev)
    (kernel : sum_t X A) (st : execute_state S A) (inputs outputs : List tensor_t)
    (sycl_deps : List Ev) (sycl_event : Option Ev)
    (hN : 1 ≤ kernel.execs_.length)
    (hargs : kernel.execs_.length
      ≤ (get_or_add st.res_cache kernel.resource_ctor_).1.exec_args.length)
    (hin : ∀ p ∈ (get_or_add st.res_cache kernel.resource_ctor_).1.mems_use_external_inputs,
      p.2 < inputs.length)
    (hout : ∀ p ∈ (get_or_add st.res_cache kernel.resource_ctor_).1.mems_use_external_outputs,
      p.2 < outputs.length) :
    ∃ r last, kernel.sycl_execute_impl execute_sycl internal_temporary_grantor allocate
        default_event st inputs outputs sycl_deps sycl_event = some (status_t.success, r) ∧
      r.submitted.length = kernel.execs_.length ∧
      (∀ (k : Nat) (x : sycl_submission _ _ _), r.submitted[k]? = some x →
        kernel.execs_[k]? = some x.exec ∧
        (get_or_add st.res_cache kernel.resource_ctor_).1.exec_args[k]? = some x.args) ∧
      (∀ x : sycl_submission _ _ _, r.submitted[0]? = some x → x.deps = sycl_deps) ∧
      (∀ (k : Nat) (x y : sycl_submission _ _ _), r.submitted[k]? = some x →
        r.submitted[k + 1]? = some y →
        y.deps = [x.event]) ∧
      r.submitted.getLast? = some last ∧
      r.sycl_event = sycl_event.map (fun _ => last.event) ∧
      r.scratchpad_deps = last.event ∧
      (∀ x ∈ r.submitted, in_dependency_closure r.submitted last.event x.event) ∧
      (∀ w ∈ sycl_deps, in_dependency_closure r.submitted last.event w) ∧
      prepare_args_set internal_temporary_grantor
        (get_or_add st.res_cache kernel.resource_ctor_).1 inputs outputs
        (temporary_scratchpad_t allocate kernel.total_internal_temporary_size).buffer
        st.handles = some r.handles ∧
      ∃ streams : List S, streams.length = kernel.execs_.length + 1 ∧
        streams[0]? = some st.p_stream ∧
        streams[kernel.execs_.length]? = some r.p_stream ∧
        ∀ (k : Nat) (x : sycl_submission _ _ _), r.submitted[k]? = some x →
          ∃ s s2, streams[k]? = some s ∧ streams[k + 1]? = some s2 ∧
            execute_sycl x.exec s x.args r.handles x.deps = (x.event, s2) := by
  obtain ⟨handles, hh⟩ := prepare_args_set_some internal_temporary_grantor
    (get_or_add st.res_cache kernel.resource_ctor_).1 inputs outputs
    (temporary_scratchpad_t allocate kernel.total_internal_temporary_size).buffer
    st.handles hin hout
  obtain ⟨st2, new, hrun, hsub, hlength, hidx, hch, hlast, streams, hsl, hs0, hsn, hcall⟩ :=
    sycl_execute_loop_spec execute_sycl kernel.execs_
      (get_or_add st.res_cache kernel.resource_ctor_).1.exec_args handles hargs
      kernel.execs_.length 0 ⟨st.p_stream, sycl_deps, default_event, []⟩ (by omega)
  obtain ⟨last, hl, hret⟩ := hlast (by omega)
  simp only [List.nil_append] at hsub
  have hcl := chained_closure new sycl_deps new (fun r hr => hr) hch last hl
  refine ⟨⟨st2.p_stream, handles, (get_or_add st.res_cache kernel.resource_ctor_).2,
    sycl_event.map (fun _ => st2.returned_event), st2.returned_event, st2.submitted⟩,
    last, ?_, ?_, ?_, ?_, ?_, ?_, ?_, ?_, ?_, ?_, hh, streams, hsl, hs0, hsn, ?_⟩
  · simp only [temporary_scratchpad_t] at hh
    simp [sum_t.sycl_execute_impl, temporary_scratchpad_t, hh, hrun]
  · simp only [hsub]
    exact hlength
  · intro k x hk
    simp only [hsub] at hk
    have := hidx k x hk
    simpa using this
  · intro x hx
    simp only [hsub] at hx
    exact chained_head sycl_deps new x hch hx
  · intro k x y hx hy
    simp only [hsub] at hx hy
    exact chained_succ sycl_deps new hch k x y hx hy
  · simp only [hsub]
    exact hl
  · simp only [hret]
  · exact hret
  · simp only [hsub]
    exact hcl.1
  · simp only [hsub]
    exact hcl.2
  · intro k x hx
    simp only [hsub] at hx
    exact hcall k x hx

/-- Witness of C11: the kernel of two executables on a stream that logs its submissions,
with the wait-events `1` and `2`. -/
theorem sum_sycl_execute_impl_chain_witness :
    1 ≤ sum_kernel_example.execs_.length ∧
    ∃ r last, sum_kernel_example.sycl_execute_impl execute_sycl_log
        (fun buffer key => buffer + key) (fun _ => 4096) 0 sycl_state_example
        [⟨100⟩, ⟨101⟩] [⟨200⟩] [1, 2] (some 0) = some (status_t.success, r) ∧
      r.submitted.length = sum_kernel_example.execs_.length ∧
      (∀ (k : Nat) (x : sycl_submission _ _ _), r.submitted[k]? = some x →
        sum_kernel_example.execs_[k]? = some x.exec ∧
        (get_or_add sycl_state_example.res_cache
          sum_kernel_example.resource_ctor_).1.exec_args[k]? = some x.args) ∧
      (∀ x : sycl_submission _ _ _, r.submitted[0]? = some x → x.deps = [1, 2]) ∧
      (∀ (k : Nat) (x y : sycl_submission _ _ _), r.submitted[k]? = some x →
        r.submitted[k + 1]? = some y →
        y.deps = [x.event]) ∧
      r.submitted.getLast? = some last ∧
      r.sycl_event = (some 0).map (fun _ => last.event) ∧
      r.scratchpad_deps = last.event ∧
      (∀ x ∈ r.submitted, in_dependency_closure r.submitted last.event x.event) ∧
      (∀ w ∈ [1, 2], in_dependency_closure r.submitted last.event w) ∧
      prepare_args_set (fun buffer key => buffer + key)
        (get_or_add sycl_state_example.res_cache sum_kernel_example.resource_ctor_).1
        [⟨100⟩, ⟨101⟩] [⟨200⟩]
        (temporary_scratchpad_t (fun _ => 4096)
          sum_kernel_example.total_internal_temporary_size).buffer
        sycl_state_example.handles = some r.handles ∧
      ∃ streams : List (List (String × Nat × List Nat)),
        streams.length = sum_kernel_example.execs_.length + 1 ∧
        streams[0]? = some sycl_state_example.p_stream ∧
        streams[sum_kernel_example.execs_.length]? = some r.p_stream ∧
        ∀ (k : Nat) (x : sycl_submission _ _ _), r.submitted[k]? = some x →
          ∃ s s2, streams[k]? = some s ∧ streams[k + 1]? = some s2 ∧
            execute_sycl_log x.exec s x.args r.handles x.deps = (x.event, s2) :=
  ⟨by decide, sum_sycl_execute_impl_chain execute_sycl_log (fun buffer key => buffer + key)
    (fun _ => 4096) 0 sum_kernel_example sycl_state_example [⟨100⟩, ⟨101⟩] [⟨200⟩] [1, 2]
    (some 0) (by decide) (by decide) (by decide) (by decide)⟩

/-- The run of the witness kernel, evaluated: the stream logs `sum` on the wait-events
`[1, 2]` and `reorder` on the event `100` of `sum`; the caller receives the event `101` of
`reorder`. -/
theorem sum_sycl_execute_impl_example_log :
    (sum_kernel_example.sycl_execute_impl execute_sycl_log (fun buffer key => buffer + key)
        (fun _ => 4096) 0 sycl_state_example [⟨100⟩, ⟨101⟩] [⟨200⟩] [1, 2] (some 0)).map
      (fun r => (r.1, r.2.p_stream, r.2.sycl_event, r.2.scratchpad_deps,
        r.2.submitted.map (fun x => (x.exec, x.args, x.deps, x.event))))
      = some (status_t.success, [("sum", 10, [1, 2]), ("reorder", 11, [100])], some 101, 101,
          [("sum", 10, [1, 2], 100), ("reorder", 11, [100], 101)]) := by
  rfl

/-! ### Lemmas on `sum_t::compile_impl` -/

theorem fill_logical_tensors_spec {LT : Type} (from_subgraph : List LT) (n i : Nat)
    (given filled : List LT) (hn : i + n = given.length)
    (h : fill_logical_tensors from_subgraph n i given = some filled) :
    filled.length = given.length ∧
    (∀ j, j < i → filled[j]? = given[j]?) ∧
    (∀ j, i ≤ j → j < given.length →
      ∃ lt, from_subgraph[j]? = some lt ∧ filled[j]? = some lt) := by
  induction n generalizing i given with
  | zero =>
    simp only [fill_logical_tensors, Option.some.injEq] at h
    subst h
    exact ⟨rfl, fun _ _ => rfl, fun j h1 h2 => by omega⟩
  | succ n ih =>
    simp only [fill_logical_tensors] at h
    cases hs : from_subgraph[i]? with
    | none => simp [hs] at h
    | some lt =>
      simp only [hs] at h
      obtain ⟨hlen, hbefore, hafter⟩ := ih (i + 1) (given.set i lt)
        (by rw [List.length_set]; omega) h
      rw [List.length_set] at hlen hafter
      refine ⟨hlen, ?_, ?_⟩
      · intro j hj
        rw [hbefore j (by omega), List.getElem?_set_ne (by omega)]
      · intro j hj1 hj2
        by_cases hji : j = i
        · subst hji
          refine ⟨lt, hs, ?_⟩
          rw [hbefore j (by omega), List.getElem?_set_self (by omega)]
        · exact hafter j (by omega) hj2

/-- No path of `sum_t::compile_impl` writes the `kernel_base_t` subobject: the engine goes to
the `p_engine_` that `sum_t` declares. -/
theorem sum_compile_impl_base {P X LT B MP A : Type} (env : sum_compile_env P X LT B MP A)
    (k : sum_members_t X LT B MP A) (part : P) (g_engine : engine_t)
    (inputs outputs : List LT) (r : compile_result (sum_members_t X LT B MP A) LT)
    (h : sum_t.compile_impl env k part g_engine inputs outputs = some r) :
    r.kernel.base = k.base ∧ r.kernel.p_engine_ = some g_engine.kind := by
  unfold sum_t.compile_impl at h
  simp only at h
  split_ifs at h <;> (try split at h) <;> (try split at h) <;>
    simp only [Option.some.injEq, reduceCtorEq] at h <;>
    first
    | contradiction
    | (subst h
       exact ⟨rfl, rfl⟩)

/-! ## Claims on `sum_t::compile_impl` and the constant cache -/

/-- C12. Whenever `sum_t::compile_impl` returns success, the kernel holds a subgraph, and
every caller-supplied input logical tensor `inputs[i]` has been overwritten with `ins_[i]` of
that subgraph and every output logical tensor `outputs[j]` with `outs_[j]`, for all
`i < inputs.size()` and `j < outputs.size()` (the two vectors keep their sizes). -/
theorem sum_compile_impl_fills_tensors {P X LT B MP A : Type}
    (env : sum_compile_env P X LT B MP A) (k : sum_members_t X LT B MP A) (part : P)
    (g_engine : engine_t) (inputs outputs : List LT)
    (r : compile_result (sum_members_t X LT B MP A) LT)
    (h : sum_t.compile_impl env k part g_engine inputs outputs = some r)
    (hs : r.status = status_t.success) :
    ∃ sg, r.kernel.subgraph_ = some sg ∧
      r.inputs.length = inputs.length ∧ r.outputs.length = outputs.length ∧
      (∀ i, i < inputs.length → ∃ lt, sg.ins_[i]? = some lt ∧ r.inputs[i]? = some lt) ∧
      (∀ j, j < outputs.length → ∃ lt, sg.outs_[j]? = some lt ∧ r.outputs[j]? = some lt) := by
  unfold sum_t.compile_impl at h
  simp only at h
  split_ifs at h with h1 h2
  · simp only [Option.some.injEq] at h
    subst h
    exact absurd hs h1
  · simp only [Option.some.injEq] at h
    subst h
    exact absurd hs h2
  · split at h
    · simp at h
    · rename_i inputs2 hin
      split at h
      · simp at h
      · rename_i outputs2 hout
        simp only [Option.some.injEq] at h
        subst h
        obtain ⟨hl1, _, hf1⟩ := fill_logical_tensors_spec _ inputs.length 0 inputs inputs2
          (by omega) hin
        obtain ⟨hl2, _, hf2⟩ := fill_logical_tensors_spec _ outputs.length 0 outputs outputs2
          (by omega) hout
        exact ⟨_, rfl, hl1, hl2, fun i hi => hf1 i (by omega) hi,
          fun j hj => hf2 j (by omega) hj⟩

/-- Witness of C12: a default-constructed kernel compiled on two inputs and one output. -/
theorem sum_compile_impl_fills_tensors_witness :
    (sum_t.compile_impl sum_compile_env_example (sum_members_t.default 0) () ⟨engine_kind_t.cpu, 7⟩
        [1, 2] [3]
      = some ⟨status_t.success,
          ⟨⟨[], none⟩, some engine_kind_t.cpu, some 7,
            some ⟨[1001, 1002], [1003], ["sum"], ()⟩, 1,
            some ⟨[10], [(0, 0), (1, 1)], [(2, 0)], []⟩⟩, [1001, 1002], [1003]⟩) ∧
    ∃ sg, (some (subgraph_t.mk [1001, 1002] [1003] ["sum"] ()) : Option _) = some sg ∧
      [1001, 1002].length = [1, 2].length ∧ [1003].length = [3].length ∧
      (∀ i, i < [1, 2].length → ∃ lt, sg.ins_[i]? = some lt ∧ [1001, 1002][i]? = some lt) ∧
      (∀ j, j < [3].length → ∃ lt, sg.outs_[j]? = some lt ∧ [1003][j]? = some lt) :=
  ⟨rfl, sum_compile_impl_fills_tensors sum_compile_env_example (sum_members_t.default 0) ()
    ⟨engine_kind_t.cpu, 7⟩ [1, 2] [3] _ rfl rfl⟩

/-- For a `sum_t` that was default-constructed and then compiled, on any engine and with any
passes, `enabled_constant_cache()` returns the global flag: `kernel_base_t::p_engine_` is
still the empty handle, so the test on the engine kind is skipped. -/
theorem sum_enabled_constant_cache_eq_flag {P X LT B MP A : Type}
    (env : sum_compile_env P X LT B MP A) (memory_planner_ : MP) (part : P)
    (g_engine : engine_t) (inputs outputs : List LT)
    (r : compile_result (sum_members_t X LT B MP A) LT)
    (is_constant_cache_enabled cpu_runtime_sycl : Bool)
    (h : sum_t.compile_impl env (sum_members_t.default memory_planner_) part g_engine inputs
      outputs = some r) :
    kernel_base_t.enabled_constant_cache is_constant_cache_enabled cpu_runtime_sycl
      r.kernel.base = is_constant_cache_enabled := by
  rw [(sum_compile_impl_base env _ part g_engine inputs outputs r h).1]
  cases cpu_runtime_sycl <;>
    simp [kernel_base_t.enabled_constant_cache, sum_members_t.default]

/-- C14, the code at a failing input. With the SYCL CPU runtime and the global constant-cache
flag set, a default-constructed sum kernel is compiled against a CPU engine: `compile_impl`
returns success and has stored the CPU engine in the `p_engine_` declared by `sum_t`, the
`p_engine_` of `kernel_base_t` is still empty, and `enabled_constant_cache()` returns
true. -/
theorem sum_enabled_constant_cache_sycl_cpu :
    ∃ r, sum_t.compile_impl sum_compile_env_example (sum_members_t.default 0) ()
        ⟨engine_kind_t.cpu, 7⟩ [1, 2] [3] = some r ∧
      r.status = status_t.success ∧
      r.kernel.p_engine_ = some engine_kind_t.cpu ∧
      r.kernel.base.p_engine_ = none ∧
      kernel_base_t.enabled_constant_cache true true r.kernel.base = true ∧
      kernel_base_t.enabled_constant_cache true true ⟨[], some engine_kind_t.cpu⟩ = false :=
  ⟨_, rfl, rfl, rfl, rfl, rfl, rfl⟩

/-! ### Lemmas on `register_passes` and the sorted registry -/

theorem float_gt_iff_key (a b : float) (ha : a.isnan = false) (hb : b.isnan = false) :
    a.gt b = true ↔ b.key < a.key := by
  simp [float.gt, ha, hb]

theorem float_le_iff_key (a b : float) (ha : a.isnan = false) (hb : b.isnan = false) :
    a.le b = true ↔ a.key ≤ b.key := by
  simp [float.le, ha, hb]

theorem register_pattern_group_passes (group : List pass_base) (r : pass_registry_t) :
    (register_pattern_group group r).passes_ = r.passes_ ++ group := by
  induction group generalizing r with
  | nil => simp [register_pattern_group]
  | cons p ps ih =>
    have := ih (r.register_pass p)
    simp only [register_pattern_group, List.foldl_cons] at this ⊢
    rw [this]
    simp [pass_registry_t.register_pass]

theorem register_passes_eq (patterns : pattern_groups) (r : pass_registry_t) :
    (autograph_backend.register_passes patterns r).2
      = (pass_registry_t.mk (r.passes_ ++ patterns.all)).sort_passes := by
  simp only [autograph_backend.register_passes, pass_registry_t.sort_passes,
    register_pattern_group_passes, pattern_groups.all, List.append_assoc]

theorem ordered_insert_pass_perm (p : pass_base) (l : List pass_base) :
    (ordered_insert_pass p l).Perm (p :: l) := by
  induction l with
  | nil => exact List.Perm.refl _
  | cons q qs ih =>
    by_cases h : p.priority.gt q.priority = true
    · simp [ordered_insert_pass, h]
    · simp only [ordered_insert_pass, h, Bool.false_eq_true, if_false]
      exact (List.Perm.cons q ih).trans (List.Perm.swap p q qs)

theorem ordered_insert_pass_sorted (p : pass_base) (l : List pass_base)
    (hp : p.priority.isnan = false) (hl : ∀ q ∈ l, q.priority.isnan = false)
    (hs : l.Pairwise (fun a b => b.priority.le a.priority = true)) :
    (ordered_insert_pass p l).Pairwise (fun a b => b.priority.le a.priority = true) := by
  induction l with
  | nil => simp [ordered_insert_pass]
  | cons q qs ih =>
    have hq : q.priority.isnan = false := hl q (List.mem_cons_self _ _)
    have hqs : ∀ x ∈ qs, x.priority.isnan = false :=
      fun x hx => hl x (List.mem_cons_of_mem _ hx)
    rw [List.pairwise_cons] at hs
    by_cases h : p.priority.gt q.priority = true
    · simp only [ordered_insert_pass, h, if_true]
      rw [List.pairwise_cons]
      refine ⟨?_, List.pairwise_cons.2 hs⟩
      intro x hx
      have hpq := (float_gt_iff_key _ _ hp hq).1 h
      rcases List.mem_cons.1 hx with hx | hx
      · subst hx
        exact (float_le_iff_key _ _ hq hp).2 (le_of_lt hpq)
      · have hxq := (float_le_iff_key _ _ (hqs x hx) hq).1 (hs.1 x hx)
        exact (float_le_iff_key _ _ (hqs x hx) hp).2 (by omega)
    · simp only [ordered_insert_pass, h, Bool.false_eq_true, if_false]
      rw [List.pairwise_cons]
      refine ⟨?_, ih hqs hs.2⟩
      intro x hx
      rcases List.mem_cons.1 ((ordered_insert_pass_perm p qs).subset hx) with hx | hx
      · subst hx
        have hnot : ¬ q.priority.key < x.priority.key :=
          fun hc => h ((float_gt_iff_key _ _ hp hq).2 hc)
        exact (float_le_iff_key _ _ hp hq).2 (by omega)
      · exact hs.1 x hx

theorem sort_fold_spec (l sorted : List pass_base)
    (hl : ∀ q ∈ l, q.priority.isnan = false) (hn : ∀ q ∈ sorted, q.priority.isnan = false)
    (hs : sorted.Pairwise (fun a b => b.priority.le a.priority = true)) :
    (l.foldl (fun sorted pass => ordered_insert_pass pass sorted) sorted).Pairwise
        (fun a b => b.priority.le a.priority = true) ∧
    (l.foldl (fun sorted pass => ordered_insert_pass pass sorted) sorted).Perm
        (sorted ++ l) := by
  induction l generalizing sorted with
  | nil => simpa using hs
  | cons p ps ih =>
    have hp : p.priority.isnan = false := hl p (List.mem_cons_self _ _)
    have hperm := ordered_insert_pass_perm p sorted
    obtain ⟨h1, h2⟩ := ih (ordered_insert_pass p sorted)
      (fun q hq => hl q (List.mem_cons_of_mem _ hq))
      (fun q hq => by
        rcases List.mem_cons.1 (hperm.subset hq) with hq | hq
        · rw [hq]
          exact hp
        · exact hn q hq)
      (ordered_insert_pass_sorted p sorted hp hn hs)
    refine ⟨h1, h2.trans ?_⟩
    have h3 : (ordered_insert_pass p sorted ++ ps).Perm ((p :: sorted) ++ ps) :=
      List.Perm.append_right ps hperm
    refine h3.trans ?_
    simp only [List.cons_append]
    exact (List.perm_middle).symm

theorem get_partitions_pm {G : Type}
    (run_passes : pass_manager_t → G → partition_policy_t → G) (env : env_t)
    (registry : pass_registry_t) (agraph : G) (policy : partition_policy_t)
    (pm : pass_manager_t)
    (h : (get_partitions run_passes env registry agraph policy).pm = some pm) :
    pm.pass_registry_.passes_ = registry.passes_.filter (fun p => !p.priority.gt
      (priority_ths policy (decide (getenv_int_internal env "ENABLE_LARGE_PARTITION" 1 > 0)))) := by
  unfold get_partitions at h
  by_cases hd : getenv_int_internal env "DISABLE_DNNL_BACKEND" 0 > 0
  · simp [hd] at h
  · simp only [hd, decide_False, Bool.false_eq_true, if_false, Option.some.injEq] at h
    rw [← h]
    simp [filter_passes_eq, pass_registry_t.get_passes]

theorem priority_ths_not_nan (policy : partition_policy_t) (large : Bool) :
    (priority_ths policy large).isnan = false := by
  cases policy <;> cases large <;> decide

theorem filter_same_priority (l : List pass_base) (ths q : float)
    (hl : ∀ p ∈ l, p.priority.isnan = false) (hths : ths.isnan = false) :
    (l.filter (fun p => !p.priority.gt ths)).filter (fun p => decide (p.priority.key = q.key))
        = [] ∨
    (l.filter (fun p => !p.priority.gt ths)).filter (fun p => decide (p.priority.key = q.key))
        = l.filter (fun p => decide (p.priority.key = q.key)) := by
  by_cases hq : ths.key < q.key
  · left
    rw [List.filter_filter, List.filter_eq_nil_iff]
    intro p hp
    have hg := float_gt_iff_key p.priority ths (hl p hp) hths
    by_cases hk : p.priority.key = q.key
    · have : p.priority.gt ths = true := hg.2 (by omega)
      simp [this]
    · simp [hk]
  · right
    rw [List.filter_filter]
    apply List.filter_congr
    intro p hp
    have hg := float_gt_iff_key p.priority ths (hl p hp) hths
    by_cases hk : p.priority.key = q.key
    · have : ¬ p.priority.gt ths = true := fun hc => hq (by have := hg.1 hc; omega)
      simp [hk, this]
    · simp [hk]

/-! ## Claims on the sorted registry -/

/-- C15. The backend sorts its registry once, after all pattern groups have been registered:
the registry that `register_passes` leaves is the sort of all registered passes, it holds
exactly those passes, and (no priority being NaN) it is in non-increasing priority order. For
every policy and environment, the registry that `get_partitions` hands to the pass manager is
still in non-increasing priority order and is a sublist of the backend registry, so its
patterns keep their relative order; the patterns of one priority are dropped together or
kept together, in the order of the sorted backend registry. -/
theorem get_partitions_keeps_registry_sorted {G : Type}
    (run_passes : pass_manager_t → G → partition_policy_t → G) (env : env_t)
    (patterns : pattern_groups) (agraph : G) (policy : partition_policy_t)
    (hnan : ∀ p ∈ patterns.all, p.priority.isnan = false) :
    (autograph_backend.register_passes patterns ⟨[]⟩).2
      = (pass_registry_t.mk patterns.all).sort_passes ∧
    (autograph_backend.register_passes patterns ⟨[]⟩).2.passes_.Perm patterns.all ∧
    (autograph_backend.register_passes patterns ⟨[]⟩).2.passes_.Pairwise
      (fun a b => b.priority.le a.priority = true) ∧
    ∀ pm, (get_partitions run_passes env
        (autograph_backend.register_passes patterns ⟨[]⟩).2 agraph policy).pm = some pm →
      pm.pass_registry_.passes_.Pairwise (fun a b => b.priority.le a.priority = true) ∧
      pm.pass_registry_.passes_.Sublist
        (autograph_backend.register_passes patterns ⟨[]⟩).2.passes_ ∧
      ∀ q : float,
        pm.pass_registry_.passes_.filter (fun p => decide (p.priority.key = q.key)) = [] ∨
        pm.pass_registry_.passes_.filter (fun p => decide (p.priority.key = q.key))
          = (autograph_backend.register_passes patterns ⟨[]⟩).2.passes_.filter
              (fun p => decide (p.priority.key = q.key)) := by
  have hreg := register_passes_eq patterns ⟨[]⟩
  simp only [List.nil_append] at hreg
  obtain ⟨hsorted, hperm⟩ := sort_fold_spec patterns.all [] hnan (by simp) List.Pairwise.nil
  simp only [List.nil_append] at hperm
  have hp : (autograph_backend.register_passes patterns ⟨[]⟩).2.passes_
      = patterns.all.foldl (fun sorted pass => ordered_insert_pass pass sorted) [] := by
    rw [hreg]
    rfl
  refine ⟨hreg, by rw [hp]; exact hperm, by rw [hp]; exact hsorted, ?_⟩
  intro pm hpm
  have hf := get_partitions_pm run_passes env _ agraph policy pm hpm
  rw [hf]
  refine ⟨List.Pairwise.filter _ (by rw [hp]; exact hsorted), List.filter_sublist _, ?_⟩
  intro q
  apply filter_same_priority
  · intro p hmem
    rw [hp] at hmem
    exact hnan p (hperm.subset hmem)
  · exact priority_ths_not_nan _ _

/-- Witness of C15: two groups register passes out of priority order, fusion policy. -/
theorem get_partitions_keeps_registry_sorted_witness :
    (∀ p ∈ pattern_groups_example.all, p.priority.isnan = false) ∧
    ((autograph_backend.register_passes pattern_groups_example ⟨[]⟩).2
      = (pass_registry_t.mk pattern_groups_example.all).sort_passes ∧
    (autograph_backend.register_passes pattern_groups_example ⟨[]⟩).2.passes_.Perm pattern_groups_example.all ∧
    (autograph_backend.register_passes pattern_groups_example ⟨[]⟩).2.passes_.Pairwise
      (fun a b => b.priority.le a.priority = true) ∧
    ∀ pm, (get_partitions run_passes_by_name env_unset
        (autograph_backend.register_passes pattern_groups_example ⟨[]⟩).2 [] partition_policy_t.fusion).pm = some pm →
      pm.pass_registry_.passes_.Pairwise (fun a b => b.priority.le a.priority = true) ∧
      pm.pass_registry_.passes_.Sublist
        (autograph_backend.register_passes pattern_groups_example ⟨[]⟩).2.passes_ ∧
      ∀ q : float,
        pm.pass_registry_.passes_.filter (fun p => decide (p.priority.key = q.key)) = [] ∨
        pm.pass_registry_.passes_.filter (fun p => decide (p.priority.key = q.key))
          = (autograph_backend.register_passes pattern_groups_example ⟨[]⟩).2.passes_.filter
              (fun p => decide (p.priority.key = q.key))) :=
  ⟨by decide, get_partitions_keeps_registry_sorted run_passes_by_name env_unset
    pattern_groups_example [] partition_policy_t.fusion (by decide)⟩

/-- The witness registry, evaluated: the sorted backend registry by pass names, and what the
pass manager receives under the debug policy. -/
theorem register_passes_example_sorted :
    (autograph_backend.register_passes pattern_groups_example ⟨[]⟩).2.passes_.map
        pass_base.pass_name
      = ["conv_block", "binary_block", "sum_pass", "binary_post_ops", "relu_pass"] ∧
    (get_partitions run_passes_by_name env_unset
        (autograph_backend.register_passes pattern_groups_example ⟨[]⟩).2 []
        partition_policy_t.debug).agraph = ["binary_post_ops", "relu_pass"] := by
  decide

/-! ## Claims on the tag-biased layout-id manager -/

/-- Whatever the library does, the debug `set_mem_desc` returns either `0` or an id that is
not below `LAST_TAG`: it never returns a format tag `t` with `0 < t < LAST_TAG`. -/
theorem debug_set_mem_desc_id_range {α D T : Type} (eq : α → α → Bool)
    (is_blocked : α → Bool) (get_format_tag : α → Nat) (get_dims : α → D)
    (get_data_type : α → T) (memory_desc : D → T → Nat → Option α)
    (LAST_TAG dnnl_format_tag_last : Nat) (mgr : layout_id_manager_t α) (md : α)
    (id : Nat) (s : layout_id_manager_t α)
    (h : dnnl_layout_id_manager_t.set_mem_desc eq is_blocked get_format_tag get_dims
      get_data_type memory_desc LAST_TAG dnnl_format_tag_last mgr md = some (some id, s)) :
    id = 0 ∨ LAST_TAG ≤ id := by
  unfold dnnl_layout_id_manager_t.set_mem_desc at h
  simp only at h
  split_ifs at h <;> (try split at h) <;> (try split_ifs at h) <;> (try split at h) <;>
    simp only [Option.some.injEq, Prod.mk.injEq, reduceCtorEq] at h <;>
    first
    | contradiction
    | omega

/-- For a descriptor that is not blocked, and for a blocked descriptor whose format tag is
not well-known, the debug `set_mem_desc` interns the descriptor as `layout_id_manager_t`
does, and returns `LAST_TAG` plus its index in the vector. -/
theorem debug_set_mem_desc_interned {α D T : Type} (eq : α → α → Bool)
    (is_blocked : α → Bool) (get_format_tag : α → Nat) (get_dims : α → D)
    (get_data_type : α → T) (memory_desc : D → T → Nat → Option α)
    (LAST_TAG dnnl_format_tag_last : Nat) (mgr : layout_id_manager_t α) (md : α)
    (h : is_blocked md = false ∨
      ¬ (get_format_tag md > 0 ∧ get_format_tag md < dnnl_format_tag_last)) :
    dnnl_layout_id_manager_t.set_mem_desc eq is_blocked get_format_tag get_dims
        get_data_type memory_desc LAST_TAG dnnl_format_tag_last mgr md
      = some ((mgr.set_mem_desc eq md).1.map (· + LAST_TAG), (mgr.set_mem_desc eq md).2) := by
  by_cases hb : is_blocked md = true
  · have ht : ¬ (get_format_tag md > 0 ∧ get_format_tag md < dnnl_format_tag_last) := by
      rcases h with h | h
      · simp [hb] at h
      · exact h
    obtain ⟨i, hi, _⟩ := set_mem_desc_id_lt eq mgr md
    unfold dnnl_layout_id_manager_t.set_mem_desc
    simp only [hb, ht, not_true_eq_false, not_false_eq_true, if_true, if_false, ne_eq]
    split_ifs <;> simp [hi]
  · unfold dnnl_layout_id_manager_t.set_mem_desc
    by_cases hf : find_if (fun m => eq m md) mgr.data_ = mgr.data_.length
    · simp [hb, hf, layout_id_manager_t.set_mem_desc]
    · simp [hb, hf, layout_id_manager_t.set_mem_desc]

/-- C13, the code at a failing input. With `LAST_TAG = dnnl_format_tag_last = 5` and an
empty manager, take the blocked descriptor of dims `[2, 2]`, data type `1`, tag `2`, no extra
flags: its tag is well-known and it is equal to the descriptor rebuilt from its dims, data
type and tag. The debug `set_mem_desc` builds `temp_md` from `layout_id` (here `0`) in place
of the tag, finds it different, stores the descriptor and returns `LAST_TAG + 0 = 5`, not the
tag `2`. -/
theorem debug_set_mem_desc_stores_plain_tag :
    (memory_desc_t.blocked ⟨[2, 2], 1, true, 2, 0⟩ = true ∧
      0 < memory_desc_t.format_tag ⟨[2, 2], 1, true, 2, 0⟩ ∧
      memory_desc_t.format_tag ⟨[2, 2], 1, true, 2, 0⟩ < 5 ∧
      memory_desc_t.with_tag 5 [2, 2] 1 2 = some ⟨[2, 2], 1, true, 2, 0⟩) ∧
    dnnl_layout_id_manager_t.set_mem_desc (fun a b : memory_desc_t => decide (a = b))
      memory_desc_t.blocked memory_desc_t.format_tag memory_desc_t.dims
      memory_desc_t.data_type (memory_desc_t.with_tag 5) 5 5 ⟨[]⟩ ⟨[2, 2], 1, true, 2, 0⟩
      = some (some 5, ⟨[⟨[2, 2], 1, true, 2, 0⟩]⟩) := by
  decide

/-- C16. In the debug build, for every id strictly below `LAST_TAG` (a `size_t` constant) and
every manager whose vector holds at most `2 ^ 64 - LAST_TAG` descriptors, `get_mem_desc id`
returns `nullopt`: `id - LAST_TAG` wraps around to `id + 2 ^ 64 - LAST_TAG`, which is not a
valid index of the vector. -/
theorem debug_get_mem_desc_below_last_tag {α : Type} (LAST_TAG : Nat)
    (mgr : layout_id_manager_t α) (id : Nat) (hid : id < LAST_TAG) (hlast : LAST_TAG < 2 ^ 64)
    (hsize : mgr.data_.length ≤ 2 ^ 64 - LAST_TAG) :
    dnnl_layout_id_manager_t.get_mem_desc LAST_TAG mgr id = none ∧
    size_t_sub id LAST_TAG = id + 2 ^ 64 - LAST_TAG ∧
    mgr.data_.length ≤ size_t_sub id LAST_TAG := by
  have h64 : (2 : Nat) ^ 64 = 18446744073709551616 := by norm_num
  have hsub : size_t_sub id LAST_TAG = id + 2 ^ 64 - LAST_TAG := by
    unfold size_t_sub
    rw [h64] at hlast ⊢
    omega
  have hle : mgr.data_.length ≤ size_t_sub id LAST_TAG := by
    rw [hsub]
    rw [h64] at hsize hlast ⊢
    omega
  refine ⟨?_, hsub, hle⟩
  unfold dnnl_layout_id_manager_t.get_mem_desc
  simp [hle]

/-- Witness of C16: the id `2` with `LAST_TAG = 5` on a vector of two descriptors. -/
theorem debug_get_mem_desc_below_last_tag_witness :
    (2 < 5 ∧ 5 < 2 ^ 64 ∧ (layout_id_manager_t.mk [7, 8]).data_.length ≤ 2 ^ 64 - 5) ∧
    (dnnl_layout_id_manager_t.get_mem_desc 5 (layout_id_manager_t.mk [7, 8]) 2 = none ∧
      size_t_sub 2 5 = 2 + 2 ^ 64 - 5 ∧
      (layout_id_manager_t.mk [7, 8]).data_.length ≤ size_t_sub 2 5) :=
  ⟨by decide, debug_get_mem_desc_below_last_tag 5 (layout_id_manager_t.mk [7, 8]) 2
    (by decide) (by decide) (by decide)⟩

end autograph_impl